import Mathlib

/-!
Verification development for the `torn-key-pool` crate of the torn-api.rs
repository.  The embedding models the PostgreSQL-backed key-pool storage
(`src/torn-key-pool/src/postgres.rs`), the selector/fallback model and the
pool orchestrator (`src/torn-key-pool/src/lib.rs`, `src/torn-key-pool/src/send.rs`).

Time is modelled in whole seconds (`Nat`); `date_trunc('minute', now())`
becomes `minuteStart`, `date_trunc('day', now())` becomes `dayStart`.
The database `timestamptz` value `'infinity'` (used by `flag_key`) is the
`Ts.inf` constructor.  SQL `int2`/`int8` values are modelled as `Int`;
the two's-complement truncation `as i16` performed by
`acquire_many_keys` is modelled explicitly by `wrap16`.
-/

set_option linter.unusedSectionVars false

namespace TornKeyPool

/-- Extended timestamp: a finite number of seconds since the epoch, or the
PostgreSQL `'infinity'` value. -/
inductive Ts where
  | fin (t : Nat) : Ts
  | inf : Ts
deriving DecidableEq, Repr

/-- One row of the `api_keys` table (struct `PgKey` plus the `last_used`,
`flag` and `cooldown` columns that the schema stores). -/
structure PgKey (D : Type) where
  id : Int
  user_id : Int
  key : String
  uses : Int
  domains : List D
  last_used : Nat
  flag : Option Nat
  cooldown : Option Ts
deriving DecidableEq, Repr

/-- The selector type from `torn-key-pool/src/lib.rs`. -/
inductive KeySelector (D : Type) where
  | key (s : String)
  | id (i : Int)
  | userId (u : Int)
  | has (ds : List D)
  | oneOf (ds : List D)
deriving DecidableEq, Repr

variable {D : Type} [DecidableEq D]

/-- `KeySelector::fallback` from `torn-key-pool/src/lib.rs`: identity
selectors have none; `Has`/`OneOf` map each domain through its own fallback,
dropping domains without one, and fail when the result is empty. -/
def KeySelector.fallback (fb : D → Option D) : KeySelector D → Option (KeySelector D)
  | .key _ => none
  | .userId _ => none
  | .id _ => none
  | .has ds =>
    let fallbacks := ds.filterMap fb
    if fallbacks.isEmpty then none else some (.has fallbacks)
  | .oneOf ds =>
    let fallbacks := ds.filterMap fb
    if fallbacks.isEmpty then none else some (.oneOf fallbacks)

/-- The SQL predicate produced by `build_predicate`: `Has` is jsonb
containment (`domains @> sel`), `OneOf` is a disjunction of singleton
containments (empty `OneOf` is `false`). -/
def matchesB (sel : KeySelector D) (k : PgKey D) : Bool :=
  match sel with
  | .key s => k.key = s
  | .id i => k.id = i
  | .userId u => k.user_id = u
  | .has ds => ds.all (fun d => k.domains.contains d)
  | .oneOf ds => ds.any (fun d => k.domains.contains d)

/-- Start of the current calendar minute (`date_trunc('minute', now())`). -/
def minuteStart (now : Nat) : Nat := now / 60 * 60

/-- Start of the current calendar day (`date_trunc('day', now())`). -/
def dayStart (now : Nat) : Nat := now / 86400 * 86400

/-- The SQL filter `cooldown is null or now() >= cooldown`. -/
def cooldownOk (now : Nat) (k : PgKey D) : Bool :=
  match k.cooldown with
  | none => true
  | some (.fin t) => t ≤ now
  | some .inf => false

/-- A key is eligible for a selector when its cooldown passed and the
selector predicate holds; both acquisition queries filter on this. -/
def eligB (now : Nat) (sel : KeySelector D) (k : PgKey D) : Bool :=
  cooldownOk now k && matchesB sel k

/-- Effective usage: `0` when the key was last used before the current
minute (the `0::int2 as uses` branch of the queries), else the stored
counter. -/
def effUses (now : Nat) (k : PgKey D) : Int :=
  if k.last_used < minuteStart now then 0 else k.uses

/-- The row as either acquisition query selects it: a fresh key comes back
with `uses = 0`, a current-minute key unchanged. -/
def effApply (now : Nat) (k : PgKey D) : PgKey D :=
  if k.last_used < minuteStart now then { k with uses := 0 } else k

/-- First row of minimal `uses` (`order by uses asc limit 1`; ties go to
storage order). -/
def minByUses : List (PgKey D) → Option (PgKey D)
  | [] => none
  | k :: ks =>
    match minByUses ks with
    | none => some k
    | some m => if m.uses < k.uses then some m else some k

/-- `update api_keys ... where api_keys.id = $id`: replace the rows with the
given row's id. -/
def updateById (st : List (PgKey D)) (k' : PgKey D) : List (PgKey D) :=
  st.map fun j => if j.id = k'.id then k' else j

/-- Rows passing the `where` clauses shared by both acquisition queries. -/
def eligibleKeys (now : Nat) (sel : KeySelector D) (st : List (PgKey D)) : List (PgKey D) :=
  st.filter (eligB now sel)

/-- The first branch of the `acquire_key` CTE: every eligible key last used
before the current minute, selected with `0::int2 as uses`. -/
def freshRows (now : Nat) (sel : KeySelector D) (st : List (PgKey D)) : List (PgKey D) :=
  ((eligibleKeys now sel st).filter fun k => decide (k.last_used < minuteStart now)).map
    fun k => { k with uses := 0 }

/-- The second branch: eligible keys already used in the current minute. -/
def currentRows (now : Nat) (sel : KeySelector D) (st : List (PgKey D)) : List (PgKey D) :=
  (eligibleKeys now sel st).filter fun k => !decide (k.last_used < minuteStart now)

/-- The candidate rows of the single-key CTE: all fresh rows unioned with
the least-used current-minute row (`order by uses asc limit 1`). -/
def singleCands (now : Nat) (sel : KeySelector D) (st : List (PgKey D)) : List (PgKey D) :=
  freshRows now sel st ++ (minByUses (currentRows now sel st)).toList

/-- One transactional attempt of `PgKeyPoolStorage::acquire_key`: pick the
overall least-used candidate row, and commit the increment only when that
row's effective usage is strictly below the limit.  `none` covers both the
empty-candidate case and the guard `key.uses < limit` failing; the caller
then moves to the fallback selector. -/
def acquireKeyAttempt (limit : Int) (now : Nat) (st : List (PgKey D))
    (sel : KeySelector D) : Option (PgKey D × List (PgKey D)) :=
  match minByUses (singleCands now sel st) with
  | none => none
  | some c =>
    if c.uses < limit then
      let c' := { c with uses := c.uses + 1, last_used := now,
                         cooldown := none, flag := none }
      some (c', updateById st c')
    else none

/-- `PgKeyPoolStorage::acquire_key` with its recursive fallback expansion.
The source recurses without a bound, relying on fallback chains being
acyclic; the fuel only caps that recursion depth and is irrelevant whenever
it exceeds the chain length. -/
def acquire_key (fb : D → Option D) (limit : Int) (now : Nat) :
    Nat → List (PgKey D) → KeySelector D → Except (KeySelector D) (PgKey D × List (PgKey D))
  | 0, _, sel => .error sel
  | fuel + 1, st, sel =>
    match acquireKeyAttempt limit now st sel with
    | some r => .ok r
    | none =>
      match KeySelector.fallback fb sel with
      | none => .error sel
      | some sel' => acquire_key fb limit now fuel st sel'

/-- Two's-complement truncation to 16 bits: models the Rust `as i16` casts
in `acquire_many_keys` (the requested `number: i64` and `result.len()` are
cast to `i16` inside the balancing loop). -/
def wrap16 (n : Int) : Int := (n + 32768) % 65536 - 32768

/-- Stable insertion into a uses-sorted list (ties keep existing order). -/
def insertByUses (k : PgKey D) : List (PgKey D) → List (PgKey D)
  | [] => [k]
  | j :: js => if k.uses ≤ j.uses then k :: j :: js else j :: insertByUses k js

/-- Stable sort by the `uses` column (`order by uses`, and
`sort_unstable_by(|k1, k2| k1.uses.cmp(&k2.uses))`; SQL leaves ties in an
unspecified order, modelled as storage order). -/
def sortByUses : List (PgKey D) → List (PgKey D)
  | [] => []
  | k :: ks => insertByUses k (sortByUses ks)

/-- Candidate rows of the `acquire_many_keys` query: eligible rows with
effective usage substituted (`0::int2` for fresh rows), sorted ascending by
usage and capped at `limit` rows (`order by uses limit $limit`). -/
def manyCands (limit : Int) (now : Nat) (sel : KeySelector D) (st : List (PgKey D)) :
    List (PgKey D) :=
  (sortByUses ((eligibleKeys now sel st).map (effApply now))).take limit.toNat

/-- First balancing loop of `acquire_many_keys`: walk every key except the
last (most-used) one; top each up by
`min(max.uses - key.uses, (number as i16) - (result.len() as i16))` slots,
pushing that many copies of the topped-up key, stopping once the result
holds `number as usize` entries.  A requested `number` below 0 would make
the Rust original push `using as usize` (≈ 2^64) copies and abort the
process; the model is only used with `0 ≤ number`. -/
def fillPhase (number maxUses : Int) : List (PgKey D) → List (PgKey D) → (List (PgKey D) × List (PgKey D))
  | [], res => ([], res)
  | k :: ks, res =>
    let available := maxUses - k.uses
    let assigned := min available (wrap16 (wrap16 number - wrap16 ((res.length : Int))))
    let k' := { k with uses := wrap16 (k.uses + assigned) }
    let res' := res ++ List.replicate assigned.toNat k'
    if res'.length = number.toNat then (k' :: ks, res')
    else
      let step := fillPhase number maxUses ks res'
      (k' :: step.1, step.2)

/-- Increment the `uses` of the first `n` rows (`slice.iter_mut().for_each`). -/
def bumpTake : Nat → List (PgKey D) → List (PgKey D)
  | 0, l => l
  | _ + 1, [] => []
  | n + 1, k :: ks => { k with uses := wrap16 (k.uses + 1) } :: bumpTake n ks

/-- Second balancing loop of `acquire_many_keys`: while the result is short
of `number` entries and the first key has not reached the limit, add one
use to the first `min(keys.len(), number - result.len())` keys and append
those (updated) keys to the result.  The Rust `while` terminates because
every pass grows the result; `fuel` is passed as `number.toNat + 2`, which
the lemmas below show is never exhausted. -/
def roundRobin (limit : Int) (numberU : Nat) : Nat → List (PgKey D) → List (PgKey D) → (List (PgKey D) × List (PgKey D))
  | 0, keys, res => (keys, res)
  | fuel + 1, keys, res =>
    if res.length < numberU then
      match keys with
      | [] => (keys, res)
      | k0 :: _ =>
        if k0.uses = limit then (keys, res)
        else
          let tk := min keys.length (numberU - res.length)
          let keys' := bumpTake tk keys
          roundRobin limit numberU fuel keys' (res ++ keys'.take tk)
    else (keys, res)

/-- One transactional attempt of `PgKeyPoolStorage::acquire_many_keys`:
read the candidate rows; if none, report `none` (fallback path); otherwise
run both balancing loops and batch-write every candidate row's new counter,
clearing cooldown and flag and refreshing `last_used` on all of them. -/
def acquireManyAttempt (limit : Int) (now : Nat) (st : List (PgKey D))
    (sel : KeySelector D) (number : Int) : Option (List (PgKey D) × List (PgKey D)) :=
  let keys0 := sortByUses (manyCands limit now sel st)
  match keys0.getLast? with
  | none => none
  | some maxRow =>
    let step1 := fillPhase number maxRow.uses keys0.dropLast []
    let keys1 := step1.1 ++ [maxRow]
    let step2 := roundRobin limit number.toNat (number.toNat + 2) keys1 step1.2
    let st' := st.map fun k =>
      match step2.1.find? (fun j => j.id == k.id) with
      | some nk => { nk with last_used := now, cooldown := none, flag := none }
      | none => k
    some (step2.2, st')

/-- `PgKeyPoolStorage::acquire_many_keys` with its recursive fallback
expansion, as for `acquire_key`. -/
def acquire_many_keys (fb : D → Option D) (limit : Int) (now : Nat) :
    Nat → List (PgKey D) → KeySelector D → Int →
      Except (KeySelector D) (List (PgKey D) × List (PgKey D))
  | 0, _, sel, _ => .error sel
  | fuel + 1, st, sel, number =>
    match acquireManyAttempt limit now st sel number with
    | some r => .ok r
    | none =>
      match KeySelector.fallback fb sel with
      | none => .error sel
      | some sel' => acquire_many_keys fb limit now fuel st sel' number

section MinByUsesLemmas

theorem minByUses_eq_none {l : List (PgKey D)} : minByUses l = none ↔ l = [] := by
  cases l with
  | nil => simp [minByUses]
  | cons k ks =>
    simp only [minByUses]
    cases h : minByUses ks with
    | none => simp
    | some m => by_cases hm : m.uses < k.uses <;> simp [hm]

theorem minByUses_mem {l : List (PgKey D)} {m : PgKey D}
    (h : minByUses l = some m) : m ∈ l := by
  induction l with
  | nil => simp [minByUses] at h
  | cons k ks ih =>
    simp only [minByUses] at h
    cases hks : minByUses ks with
    | none => rw [hks] at h; simp at h; simp [h]
    | some m' =>
      rw [hks] at h
      by_cases hm : m'.uses < k.uses
      · simp [hm] at h; subst h; exact List.mem_cons_of_mem _ (ih hks)
      · simp [hm] at h; simp [h]

theorem minByUses_le {l : List (PgKey D)} {m : PgKey D}
    (h : minByUses l = some m) : ∀ x ∈ l, m.uses ≤ x.uses := by
  induction l generalizing m with
  | nil => simp [minByUses] at h
  | cons k ks ih =>
    intro x hx
    simp only [minByUses] at h
    cases hks : minByUses ks with
    | none =>
      rw [hks] at h; simp at h
      rcases List.mem_cons.1 hx with hxk | hxks
      · simp [← h, hxk]
      · exact absurd (minByUses_eq_none.1 hks ▸ hxks) (List.not_mem_nil x)
    | some m' =>
      rw [hks] at h
      by_cases hm : m'.uses < k.uses
      · simp [hm] at h; subst h
        rcases List.mem_cons.1 hx with hxk | hxks
        · exact hxk ▸ le_of_lt hm
        · exact ih hks x hxks
      · simp [hm] at h; subst h
        rcases List.mem_cons.1 hx with hxk | hxks
        · exact hxk ▸ le_refl _
        · exact le_trans (not_lt.1 hm) (ih hks x hxks)

end MinByUsesLemmas

section SingleAcquire

theorem mem_eligibleKeys {now : Nat} {sel : KeySelector D} {st : List (PgKey D)}
    {k : PgKey D} (hk : k ∈ st) (he : eligB now sel k = true) :
    k ∈ eligibleKeys now sel st :=
  List.mem_filter.2 ⟨hk, he⟩

theorem exists_cand_le_eff {now : Nat} {sel : KeySelector D} {st : List (PgKey D)}
    {e : PgKey D} (he : e ∈ eligibleKeys now sel st) :
    ∃ c ∈ singleCands now sel st, c.uses ≤ effUses now e := by
  by_cases h : e.last_used < minuteStart now
  · refine ⟨{ e with uses := 0 }, ?_, ?_⟩
    · exact List.mem_append_left _
        (List.mem_map.2 ⟨e, List.mem_filter.2 ⟨he, by simp [h]⟩, rfl⟩)
    · simp [effUses, h]
  · have hcur : e ∈ currentRows now sel st := List.mem_filter.2 ⟨he, by simp [h]⟩
    cases hm : minByUses (currentRows now sel st) with
    | none =>
      exact absurd (minByUses_eq_none.1 hm ▸ hcur) (List.not_mem_nil e)
    | some m =>
      refine ⟨m, List.mem_append_right _ (by simp [hm]), ?_⟩
      have := minByUses_le hm e hcur
      simpa [effUses, h] using this

theorem exists_elig_of_cand {now : Nat} {sel : KeySelector D} {st : List (PgKey D)}
    {c : PgKey D} (hc : c ∈ singleCands now sel st) :
    ∃ e ∈ eligibleKeys now sel st, c = effApply now e ∧ c.uses = effUses now e := by
  rcases List.mem_append.1 hc with hf | hcur
  · rcases List.mem_map.1 hf with ⟨e, hef, rfl⟩
    rcases List.mem_filter.1 hef with ⟨hee, hfresh⟩
    simp only [decide_eq_true_eq] at hfresh
    exact ⟨e, hee, by simp [effApply, hfresh], by simp [effUses, hfresh]⟩
  · have hm : minByUses (currentRows now sel st) = some c := by
      cases hm : minByUses (currentRows now sel st) <;> simp [hm] at hcur <;> simp [hcur]
    have hcc := minByUses_mem hm
    rcases List.mem_filter.1 hcc with ⟨hee, hnf⟩
    simp only [Bool.not_eq_true', decide_eq_false_iff_not] at hnf
    exact ⟨c, hee, by simp [effApply, hnf], by simp [effUses, hnf]⟩

/-- C2: single-acquisition postcondition.  Whenever some key matching the
selector has an expired (or absent) cooldown and effective usage strictly
below the limit, `acquire_key` succeeds on its first attempt, the acquired
key is an eligible matching key of minimal effective usage, its counter is
incremented by exactly one from its effective usage (so from 0 when fresh),
its cooldown and flag are cleared, its `last_used` is set to now, and the
persisted state is updated at exactly that key. -/
theorem acquire_key_single_postcondition (fb : D → Option D) (limit : Int)
    (now : Nat) (st : List (PgKey D)) (sel : KeySelector D) (fuel : Nat)
    (k : PgKey D) (hk : k ∈ st) (he : eligB now sel k = true)
    (hcap : effUses now k < limit) :
    ∃ e k' st',
      e ∈ st ∧ eligB now sel e = true ∧
      (∀ j ∈ st, eligB now sel j = true → effUses now e ≤ effUses now j) ∧
      k' = { e with uses := effUses now e + 1, last_used := now,
                    cooldown := none, flag := none } ∧
      st' = updateById st k' ∧
      acquire_key fb limit now (fuel + 1) st sel = .ok (k', st') := by
  have hke : k ∈ eligibleKeys now sel st := mem_eligibleKeys hk he
  rcases exists_cand_le_eff hke with ⟨c₀, hc₀, hc₀le⟩
  have hne : singleCands now sel st ≠ [] := List.ne_nil_of_mem hc₀
  cases hmin : minByUses (singleCands now sel st) with
  | none => exact absurd (minByUses_eq_none.1 hmin) hne
  | some c =>
    rcases exists_elig_of_cand (minByUses_mem hmin) with ⟨e, hee, hceff, hcuses⟩
    have hlt : c.uses < limit :=
      lt_of_le_of_lt (le_trans (minByUses_le hmin c₀ hc₀) hc₀le) hcap
    have hminelig : ∀ j ∈ st, eligB now sel j = true → effUses now e ≤ effUses now j := by
      intro j hj hje
      rcases exists_cand_le_eff (mem_eligibleKeys hj hje) with ⟨cj, hcj, hcjle⟩
      exact le_trans (hcuses ▸ minByUses_le hmin cj hcj) hcjle
    have hrec : ({ c with uses := c.uses + 1, last_used := now,
                          cooldown := none, flag := none } : PgKey D)
        = { e with uses := effUses now e + 1, last_used := now,
                   cooldown := none, flag := none } := by
      rw [hceff]
      unfold effApply effUses
      by_cases h : e.last_used < minuteStart now <;> simp [h]
    rcases List.mem_filter.1 hee with ⟨heSt, heElig⟩
    refine ⟨e, _, _, heSt, heElig, hminelig, rfl, rfl, ?_⟩
    simp only [acquire_key, acquireKeyAttempt, hmin, hlt, if_true]
    rw [hrec]

end SingleAcquire

section Fallback

/-- Matching only inspects identity and domain columns, never the columns
mutated by an acquisition. -/
theorem matchesB_fields (sel : KeySelector D) (k : PgKey D) (u : Int) (lu : Nat)
    (cd : Option Ts) (fl : Option Nat) :
    matchesB sel { k with uses := u, last_used := lu, cooldown := cd, flag := fl }
      = matchesB sel k := by
  cases sel <;> rfl

theorem eligibleKeys_eq_nil {now : Nat} {sel : KeySelector D} {st : List (PgKey D)}
    (h : ∀ k ∈ st, eligB now sel k = false) :
    eligibleKeys now sel st = [] := by
  unfold eligibleKeys
  induction st with
  | nil => rfl
  | cons a l ih =>
    have ha := h a (List.mem_cons_self a l)
    simp [List.filter, ha]
    exact fun k hk => h k (List.mem_cons_of_mem a hk)

theorem acquireKeyAttempt_eq_none {limit : Int} {now : Nat} {st : List (PgKey D)}
    {sel : KeySelector D} (h : ∀ k ∈ st, eligB now sel k = false) :
    acquireKeyAttempt limit now st sel = none := by
  have hc : singleCands now sel st = [] := by
    simp [singleCands, freshRows, currentRows, eligibleKeys_eq_nil h, minByUses]
  simp [acquireKeyAttempt, hc, minByUses]

/-- C4: fallback behaviour.  The `fallback` of a `Has` selector maps each
domain to its own fallback and drops the rest, yielding `none` exactly when
the mapped list is empty; identity selectors have no fallback; an
acquisition whose selector matches no key steps to the fallback selector,
succeeds with a key satisfying the fallback domains when an eligible one
exists there, and fails with `Unavailable` (the error carrying the
exhausted selector) when there is no fallback. -/
theorem fallback_behaviour (fb : D → Option D) (limit : Int) (now : Nat) (fuel : Nat) :
    (∀ s : String, KeySelector.fallback fb (.key s) = none) ∧
    (∀ i : Int, KeySelector.fallback fb (.id i) = none) ∧
    (∀ u : Int, KeySelector.fallback fb (.userId u) = none) ∧
    (∀ ds : List D, KeySelector.fallback fb (.has ds) =
      if ds.filterMap fb = [] then none else some (.has (ds.filterMap fb))) ∧
    (∀ (st : List (PgKey D)) (sel sel' : KeySelector D),
      (∀ k ∈ st, eligB now sel k = false) →
      KeySelector.fallback fb sel = some sel' →
      acquire_key fb limit now (fuel + 1) st sel = acquire_key fb limit now fuel st sel') ∧
    (∀ (st : List (PgKey D)) (sel : KeySelector D),
      (∀ k ∈ st, eligB now sel k = false) →
      KeySelector.fallback fb sel = none →
      acquire_key fb limit now (fuel + 1) st sel = .error sel) ∧
    (∀ (st : List (PgKey D)) (ds : List D) (k : PgKey D),
      (∀ j ∈ st, eligB now (.has ds) j = false) →
      ds.filterMap fb ≠ [] →
      k ∈ st → eligB now (.has (ds.filterMap fb)) k = true →
      effUses now k < limit →
      ∃ k' st', acquire_key fb limit now (fuel + 2) st (.has ds) = .ok (k', st') ∧
        matchesB (.has (ds.filterMap fb)) k' = true) := by
  refine ⟨fun _ => rfl, fun _ => rfl, fun _ => rfl, ?_, ?_, ?_, ?_⟩
  · intro ds
    by_cases hds : ds.filterMap fb = [] <;>
      simp [KeySelector.fallback, List.isEmpty_iff, hds]
  · intro st sel sel' hnone hfb
    simp [acquire_key, acquireKeyAttempt_eq_none hnone, hfb]
  · intro st sel hnone hfb
    simp [acquire_key, acquireKeyAttempt_eq_none hnone, hfb]
  · intro st ds k hnone hfb hk he hcap
    have hstep : acquire_key fb limit now (fuel + 1 + 1) st (.has ds)
        = acquire_key fb limit now (fuel + 1) st (.has (ds.filterMap fb)) := by
      have hfb' : KeySelector.fallback fb (.has ds) = some (.has (ds.filterMap fb)) := by
        simp [KeySelector.fallback, List.isEmpty_iff, hfb]
      simp [acquire_key, acquireKeyAttempt_eq_none hnone, hfb']
    rcases acquire_key_single_postcondition fb limit now st (.has (ds.filterMap fb)) fuel
      k hk he hcap with ⟨e, k', st', _, heElig, _, hk'eq, _, hrun⟩
    refine ⟨k', st', by rw [hstep]; exact hrun, ?_⟩
    have : matchesB (.has (ds.filterMap fb)) k' = matchesB (.has (ds.filterMap fb)) e := by
      rw [hk'eq]; exact matchesB_fields _ e _ _ _ _
    rw [this]
    have he2 := heElig
    simp only [eligB, Bool.and_eq_true] at he2
    exact he2.2

end Fallback

section SortLemmas

/-- Ascending by the `uses` column. -/
def SortedUses (l : List (PgKey D)) : Prop :=
  l.Pairwise fun a b => a.uses ≤ b.uses

theorem wrap16_eq_self {n : Int} (h0 : -32768 ≤ n) (h1 : n < 32768) :
    wrap16 n = n := by
  unfold wrap16; omega

theorem mem_insertByUses {a k : PgKey D} {l : List (PgKey D)} :
    a ∈ insertByUses k l ↔ a = k ∨ a ∈ l := by
  induction l with
  | nil => simp [insertByUses]
  | cons j js ih =>
    by_cases h : k.uses ≤ j.uses
    · simp [insertByUses, h]
    · simp [insertByUses, h, ih]
      tauto

theorem insertByUses_perm (k : PgKey D) (l : List (PgKey D)) :
    List.Perm (insertByUses k l) (k :: l) := by
  induction l with
  | nil => rfl
  | cons j js ih =>
    by_cases h : k.uses ≤ j.uses
    · simp [insertByUses, h]
    · simp only [insertByUses, h, if_false]
      exact (ih.cons j).trans (List.Perm.swap k j js)

theorem sortByUses_perm (l : List (PgKey D)) : List.Perm (sortByUses l) l := by
  induction l with
  | nil => rfl
  | cons k ks ih => exact (insertByUses_perm k (sortByUses ks)).trans (ih.cons k)

theorem insertByUses_sorted {k : PgKey D} {l : List (PgKey D)}
    (h : SortedUses l) : SortedUses (insertByUses k l) := by
  induction l with
  | nil => simp [insertByUses, SortedUses]
  | cons j js ih =>
    rcases List.pairwise_cons.1 h with ⟨hj, hjs⟩
    by_cases hk : k.uses ≤ j.uses
    · simp only [insertByUses, hk, if_true]
      exact List.pairwise_cons.2 ⟨by
        intro x hx
        rcases List.mem_cons.1 hx with rfl | hxj
        · exact hk
        · exact le_trans hk (hj x hxj), h⟩
    · simp only [insertByUses, hk, if_false]
      refine List.pairwise_cons.2 ⟨?_, ih hjs⟩
      intro x hx
      rcases mem_insertByUses.1 hx with rfl | hxj
      · exact le_of_not_le hk
      · exact hj x hxj

theorem sortByUses_sorted (l : List (PgKey D)) : SortedUses (sortByUses l) := by
  induction l with
  | nil => simp [sortByUses, SortedUses]
  | cons k ks ih => exact insertByUses_sorted ih

theorem sortByUses_eq_self {l : List (PgKey D)} (h : SortedUses l) :
    sortByUses l = l := by
  induction l with
  | nil => rfl
  | cons k ks ih =>
    rcases List.pairwise_cons.1 h with ⟨hk, hks⟩
    rw [sortByUses, ih hks]
    cases ks with
    | nil => rfl
    | cons j js => simp [insertByUses, hk j (List.mem_cons_self j js)]

theorem getLast?_decomp {α : Type} {l : List α} {m : α}
    (h : l.getLast? = some m) : l = l.dropLast ++ [m] := by
  induction l with
  | nil => simp at h
  | cons k ks ih =>
    cases ks with
    | nil => simp_all
    | cons j js =>
      rw [List.getLast?_cons_cons] at h
      have := ih h
      rw [List.dropLast_cons_of_ne_nil (by simp)]
      exact congrArg (k :: ·) this

theorem sorted_le_getLast {l : List (PgKey D)} {m : PgKey D}
    (hs : SortedUses l) (hm : l.getLast? = some m) :
    ∀ x ∈ l, x.uses ≤ m.uses := by
  intro x hx
  have hd := getLast?_decomp hm
  rw [hd] at hs hx
  rcases List.mem_append.1 hx with hxd | hxm
  · exact (List.pairwise_append.1 hs).2.2 x hxd m (List.mem_singleton_self m)
  · simp at hxm; simp [hxm]

end SortLemmas

section CapSum

/-- Remaining capacity of a list of rows relative to a ceiling `c`:
`Σ (c - uses)`. -/
def capSum (c : Int) (l : List (PgKey D)) : Int :=
  (l.map fun k => c - k.uses).sum

theorem capSum_nil (c : Int) : capSum c ([] : List (PgKey D)) = 0 := rfl

theorem capSum_cons (c : Int) (k : PgKey D) (l : List (PgKey D)) :
    capSum c (k :: l) = (c - k.uses) + capSum c l := by
  simp [capSum]

theorem capSum_append (c : Int) (l₁ l₂ : List (PgKey D)) :
    capSum c (l₁ ++ l₂) = capSum c l₁ + capSum c l₂ := by
  simp [capSum]

theorem capSum_nonneg {c : Int} {l : List (PgKey D)}
    (h : ∀ k ∈ l, k.uses ≤ c) : 0 ≤ capSum c l := by
  apply List.sum_nonneg
  intro x hx
  rcases List.mem_map.1 hx with ⟨k, hk, rfl⟩
  exact sub_nonneg.2 (h k hk)

theorem capSum_split (cHi cLo : Int) (l : List (PgKey D)) :
    capSum cHi l = capSum cLo l + l.length * (cHi - cLo) := by
  induction l with
  | nil => simp [capSum]
  | cons k ks ih =>
    rw [capSum_cons, capSum_cons, ih, List.length_cons]
    push_cast
    ring

theorem capSum_eq_zero_forall {c : Int} {l : List (PgKey D)}
    (hb : ∀ k ∈ l, k.uses ≤ c) (h0 : capSum c l ≤ 0) :
    ∀ k ∈ l, k.uses = c := by
  induction l with
  | nil => simp
  | cons j js ih =>
    rw [capSum_cons] at h0
    have hjs : 0 ≤ capSum c js := capSum_nonneg fun k hk => hb k (List.mem_cons_of_mem j hk)
    have hj : j.uses ≤ c := hb j (List.mem_cons_self j js)
    intro k hk
    rcases List.mem_cons.1 hk with rfl | hkj
    · omega
    · exact ih (fun x hx => hb x (List.mem_cons_of_mem j hx)) (by omega) k hkj

theorem capSum_mono {c₁ c₂ : Int} (h : c₁ ≤ c₂) (l : List (PgKey D)) :
    capSum c₁ l ≤ capSum c₂ l := by
  induction l with
  | nil => simp [capSum]
  | cons k ks ih =>
    rw [capSum_cons, capSum_cons]
    omega

end CapSum

section ShapeLemmas

theorem bumpTake_length (n : Nat) (l : List (PgKey D)) :
    (bumpTake n l).length = l.length := by
  induction l generalizing n with
  | nil => cases n <;> rfl
  | cons k ks ih =>
    cases n with
    | zero => rfl
    | succ n => simp [bumpTake, ih]

theorem bumpTake_ids (n : Nat) (l : List (PgKey D)) :
    (bumpTake n l).map (·.id) = l.map (·.id) := by
  induction l generalizing n with
  | nil => cases n <;> rfl
  | cons k ks ih =>
    cases n with
    | zero => rfl
    | succ n => simp [bumpTake, ih]

theorem bumpTake_mem_allEq {m : Int} {l : List (PgKey D)}
    (hall : ∀ k ∈ l, k.uses = m) (hw : wrap16 (m + 1) = m + 1) (n : Nat) :
    ∀ a ∈ bumpTake n l, a.uses = m + 1 ∨ a.uses = m := by
  induction l generalizing n with
  | nil => intro a ha; cases n <;> simp [bumpTake] at ha
  | cons k ks ih =>
    intro a ha
    cases n with
    | zero => exact Or.inr (hall a ha)
    | succ n =>
      simp only [bumpTake] at ha
      rcases List.mem_cons.1 ha with rfl | hks
      · left; simp [hall k (List.mem_cons_self k ks), hw]
      · exact ih (fun j hj => hall j (List.mem_cons_of_mem _ hj)) n a hks

theorem bumpTake_all {m : Int} {l : List (PgKey D)}
    (hall : ∀ k ∈ l, k.uses = m) (hw : wrap16 (m + 1) = m + 1) {n : Nat}
    (hn : l.length ≤ n) : ∀ a ∈ bumpTake n l, a.uses = m + 1 := by
  induction l generalizing n with
  | nil => intro a ha; cases n <;> simp [bumpTake] at ha
  | cons k ks ih =>
    intro a ha
    cases n with
    | zero => simp at hn
    | succ n =>
      simp only [bumpTake] at ha
      rcases List.mem_cons.1 ha with rfl | hks
      · simp [hall k (List.mem_cons_self k ks), hw]
      · exact ih (fun j hj => hall j (List.mem_cons_of_mem _ hj))
          (Nat.le_of_succ_le_succ hn) a hks

theorem fillPhase_ids (number maxUses : Int) (ks res : List (PgKey D)) :
    (fillPhase number maxUses ks res).1.map (·.id) = ks.map (·.id) := by
  induction ks generalizing res with
  | nil => rfl
  | cons k ks ih =>
    simp only [fillPhase]
    split
    · simp
    · simp [ih]

theorem fillPhase_res_sub (number maxUses : Int) (ks res : List (PgKey D)) :
    ∀ x ∈ (fillPhase number maxUses ks res).2, x ∈ res ∨ x.id ∈ ks.map (·.id) := by
  induction ks generalizing res with
  | nil => intro x hx; exact Or.inl hx
  | cons k ks ih =>
    intro x hx
    simp only [fillPhase] at hx
    split at hx
    · rcases List.mem_append.1 hx with h | h
      · exact Or.inl h
      · right; rw [List.eq_of_mem_replicate h]; simp
    · rcases ih _ x hx with h | h
      · rcases List.mem_append.1 h with h1 | h2
        · exact Or.inl h1
        · right; rw [List.eq_of_mem_replicate h2]; simp
      · right
        rw [List.map_cons]
        exact List.mem_cons_of_mem _ h

theorem roundRobin_exit {limit : Int} {numberU fuel : Nat}
    {keys res : List (PgKey D)} (h : numberU ≤ res.length) :
    roundRobin limit numberU fuel keys res = (keys, res) := by
  cases fuel with
  | zero => rfl
  | succ fuel => simp [roundRobin, Nat.not_lt.2 h]

theorem roundRobin_ids (limit : Int) (numberU fuel : Nat) (keys res : List (PgKey D)) :
    (roundRobin limit numberU fuel keys res).1.map (·.id) = keys.map (·.id) := by
  induction fuel generalizing keys res with
  | zero => rfl
  | succ fuel ih =>
    by_cases h1 : res.length < numberU
    · cases keys with
      | nil => simp [roundRobin, h1]
      | cons k0 kt =>
        by_cases h2 : k0.uses = limit
        · simp [roundRobin, h1, h2]
        · simp only [roundRobin, h1, if_true, h2, if_false]
          rw [ih]
          exact bumpTake_ids _ _
    · simp [roundRobin, h1]

theorem roundRobin_res_sub (limit : Int) (numberU fuel : Nat) (keys res : List (PgKey D)) :
    ∀ x ∈ (roundRobin limit numberU fuel keys res).2,
      x ∈ res ∨ x.id ∈ keys.map (·.id) := by
  induction fuel generalizing keys res with
  | zero => intro x hx; exact Or.inl hx
  | succ fuel ih =>
    intro x hx
    by_cases h1 : res.length < numberU
    · cases keys with
      | nil => simp [roundRobin, h1] at hx; exact Or.inl hx
      | cons k0 kt =>
        by_cases h2 : k0.uses = limit
        · simp only [roundRobin, h1, if_true, h2] at hx
          exact Or.inl hx
        · simp only [roundRobin, h1, if_true, h2, if_false] at hx
          rcases ih _ _ x hx with h | h
          · rcases List.mem_append.1 h with ha | hb
            · exact Or.inl ha
            · right
              rw [← bumpTake_ids (min (k0 :: kt).length (numberU - res.length)) (k0 :: kt)]
              exact List.mem_map.2 ⟨x, List.take_subset _ _ hb, rfl⟩
          · right
            rw [← bumpTake_ids (min (k0 :: kt).length (numberU - res.length)) (k0 :: kt)]
            exact h
    · simp only [roundRobin, h1, if_false] at hx
      exact Or.inl hx

end ShapeLemmas

section FillPhaseLemmas

/-- When the requested number covers the whole deficit below `maxUses`,
the first balancing loop tops every processed key up to exactly `maxUses`
and emits one result slot per topped-up use. -/
theorem fillPhase_equalize {number maxUses : Int} (hn0 : 0 ≤ number)
    (hn1 : number < 32768) (hmax0 : 0 ≤ maxUses) (hmax1 : maxUses ≤ 32767) :
    ∀ (ks res : List (PgKey D)),
      (∀ k ∈ ks, 0 ≤ k.uses ∧ k.uses ≤ maxUses) →
      (res.length : Int) ≤ number →
      capSum maxUses ks ≤ number - res.length →
      (fillPhase number maxUses ks res).1
          = ks.map (fun k => { k with uses := maxUses }) ∧
      ((fillPhase number maxUses ks res).2.length : Int)
          = res.length + capSum maxUses ks := by
  intro ks
  induction ks with
  | nil =>
    intro res _ _ _
    exact ⟨rfl, by simp [fillPhase, capSum]⟩
  | cons k ks ih =>
    intro res hb hres hcap
    have hkb := hb k (List.mem_cons_self k ks)
    have hksb : ∀ j ∈ ks, 0 ≤ j.uses ∧ j.uses ≤ maxUses :=
      fun j hj => hb j (List.mem_cons_of_mem k hj)
    have hcapks : 0 ≤ capSum maxUses ks := capSum_nonneg fun j hj => (hksb j hj).2
    rw [capSum_cons] at hcap
    have hres0 : (0:Int) ≤ res.length := Int.natCast_nonneg _
    have hw1 : wrap16 number = number := wrap16_eq_self (by omega) (by omega)
    have hw2 : wrap16 ((res.length : Int)) = (res.length : Int) :=
      wrap16_eq_self (by omega) (by omega)
    have hw3 : wrap16 (number - (res.length : Int)) = number - (res.length : Int) :=
      wrap16_eq_self (by omega) (by omega)
    have hassign : min (maxUses - k.uses)
        (wrap16 (wrap16 number - wrap16 ((res.length : Int)))) = maxUses - k.uses := by
      rw [hw1, hw2, hw3]
      exact min_eq_left (by omega)
    have hwk : wrap16 (k.uses + (maxUses - k.uses)) = maxUses := by
      have : k.uses + (maxUses - k.uses) = maxUses := by ring
      rw [this]
      exact wrap16_eq_self (by omega) (by omega)
    simp only [fillPhase, hassign, hwk]
    have hlen : (res ++ List.replicate (maxUses - k.uses).toNat
        ({ k with uses := maxUses } : PgKey D)).length
        = res.length + (maxUses - k.uses).toNat := by
      simp
    split
    · rename_i hbreak
      rw [hlen] at hbreak
      -- the break can only fire once the remaining keys carry no deficit
      have hnum : (res.length : Int) + (maxUses - k.uses) = number := by omega
      have hks0 : capSum maxUses ks ≤ 0 := by omega
      have hall : ∀ j ∈ ks, j.uses = maxUses :=
        capSum_eq_zero_forall (fun j hj => (hksb j hj).2) hks0
      have hmap : ks.map (fun j => ({ j with uses := maxUses } : PgKey D)) = ks := by
        have : ∀ j ∈ ks, ({ j with uses := maxUses } : PgKey D) = j := by
          intro j hj
          have := hall j hj
          cases j
          simp_all
        calc ks.map (fun j => ({ j with uses := maxUses } : PgKey D))
            = ks.map id := List.map_congr_left this
          _ = ks := List.map_id ks
      constructor
      · simp [hmap]
      · rw [hlen, capSum_cons]
        push_cast
        omega
    · rename_i hbreak
      have hrec := ih (res ++ List.replicate (maxUses - k.uses).toNat
        ({ k with uses := maxUses } : PgKey D)) hksb (by rw [hlen]; push_cast; omega)
        (by rw [hlen]; push_cast; omega)
      refine ⟨?_, ?_⟩
      · rw [List.map_cons]
        exact congrArg (_ :: ·) hrec.1
      · rw [hrec.2, hlen, capSum_cons]
        push_cast
        omega

/-- When the requested number is at most the deficit below `maxUses`, the
first balancing loop fills the result to exactly `number` slots. -/
theorem fillPhase_reach {number maxUses : Int} (hn0 : 0 ≤ number)
    (hn1 : number < 32768) (hmax0 : 0 ≤ maxUses) (hmax1 : maxUses ≤ 32767) :
    ∀ (ks res : List (PgKey D)),
      (∀ k ∈ ks, 0 ≤ k.uses ∧ k.uses ≤ maxUses) →
      (res.length : Int) ≤ number →
      number - res.length ≤ capSum maxUses ks →
      ((fillPhase number maxUses ks res).2.length : Int) = number := by
  intro ks
  induction ks with
  | nil =>
    intro res _ hres hcap
    rw [capSum_nil] at hcap
    simp only [fillPhase]
    omega
  | cons k ks ih =>
    intro res hb hres hcap
    have hkb := hb k (List.mem_cons_self k ks)
    have hksb : ∀ j ∈ ks, 0 ≤ j.uses ∧ j.uses ≤ maxUses :=
      fun j hj => hb j (List.mem_cons_of_mem k hj)
    have hcapks : 0 ≤ capSum maxUses ks := capSum_nonneg fun j hj => (hksb j hj).2
    rw [capSum_cons] at hcap
    have hres0 : (0:Int) ≤ res.length := Int.natCast_nonneg _
    have hw1 : wrap16 number = number := wrap16_eq_self (by omega) (by omega)
    have hw2 : wrap16 ((res.length : Int)) = (res.length : Int) :=
      wrap16_eq_self (by omega) (by omega)
    have hw3 : wrap16 (number - (res.length : Int)) = number - (res.length : Int) :=
      wrap16_eq_self (by omega) (by omega)
    simp only [fillPhase, hw1, hw2, hw3]
    have hmin0 : (0:Int) ≤ min (maxUses - k.uses) (number - (res.length : Int)) := by
      have h1 : (0:Int) ≤ maxUses - k.uses := by omega
      have h2 : (0:Int) ≤ number - (res.length : Int) := by omega
      exact le_min h1 h2
    have hlen : (res ++ List.replicate
          (min (maxUses - k.uses) (number - (res.length : Int))).toNat
          ({ k with uses := wrap16 (k.uses + min (maxUses - k.uses)
              (number - (res.length : Int))) } : PgKey D)).length
        = res.length
          + (min (maxUses - k.uses) (number - (res.length : Int))).toNat := by
      simp
    split
    · rename_i hbreak
      rw [hbreak]
      simp [Int.toNat_of_nonneg hn0]
    · rename_i hbreak
      rw [hlen] at hbreak
      -- the assigned count must have been the availability, not the remainder
      have hminav : min (maxUses - k.uses) (number - (res.length : Int))
          = maxUses - k.uses := by
        rcases le_or_lt (maxUses - k.uses) (number - (res.length : Int)) with h | h
        · exact min_eq_left h
        · exfalso
          apply hbreak
          have hmr : min (maxUses - k.uses) (number - (res.length : Int))
              = number - (res.length : Int) := min_eq_right (le_of_lt h)
          rw [hmr]
          omega
      have hle : maxUses - k.uses ≤ number - (res.length : Int) :=
        min_eq_left_iff.1 hminav
      rw [hminav] at hbreak ⊢
      exact ih _ hksb (by simp; omega) (by simp; omega)

end FillPhaseLemmas

section RoundRobinLemmas

/-- Second balancing loop, case with enough capacity: starting from keys
that all sit at the same level `m`, if the shortfall fits within
`keys.length * (limit - m)` the loop fills the result to exactly `numberU`
slots and leaves the keys within a spread of one use of each other, never
above the limit. -/
theorem roundRobin_reach {limit : Int} (hL1 : limit ≤ 32767) (numberU : Nat) :
    ∀ (fuel : Nat) (m : Int) (keys res : List (PgKey D)),
      0 ≤ m → m ≤ limit →
      keys ≠ [] →
      (∀ k ∈ keys, k.uses = m) →
      res.length ≤ numberU →
      numberU ≤ fuel + res.length →
      (numberU : Int) - res.length ≤ keys.length * (limit - m) →
      (roundRobin limit numberU fuel keys res).2.length = numberU ∧
      (∀ a ∈ (roundRobin limit numberU fuel keys res).1,
        ∀ b ∈ (roundRobin limit numberU fuel keys res).1, a.uses - b.uses ≤ 1) ∧
      (∀ a ∈ (roundRobin limit numberU fuel keys res).1,
        0 ≤ a.uses ∧ a.uses ≤ limit) := by
  intro fuel
  induction fuel with
  | zero =>
    intro m keys res hm0 hm1 hne hall hres hfuel hcap
    have hlen : res.length = numberU := by omega
    refine ⟨hlen, ?_, ?_⟩
    · intro a ha b hb
      rw [hall a ha, hall b hb]
      omega
    · intro a ha
      rw [hall a ha]
      exact ⟨hm0, hm1⟩
  | succ fuel ih =>
    intro m keys res hm0 hm1 hne hall hres hfuel hcap
    by_cases hfull : res.length < numberU
    · cases keys with
      | nil => exact absurd rfl hne
      | cons k0 kt =>
        have hk0 : k0.uses = m := hall k0 (List.mem_cons_self k0 kt)
        by_cases hlim : k0.uses = limit
        · exfalso
          have hm : limit - m = 0 := by omega
          rw [hm, mul_zero] at hcap
          omega
        · have hmlt : m < limit := by omega
          have hw : wrap16 (m + 1) = m + 1 := wrap16_eq_self (by omega) (by omega)
          simp only [roundRobin, hfull, if_true, hlim, if_false]
          have hlenbump : (bumpTake (min (k0 :: kt).length (numberU - res.length))
              (k0 :: kt)).length = (k0 :: kt).length := bumpTake_length _ _
          by_cases hcase : numberU - res.length ≤ (k0 :: kt).length
          · -- partial (or exactly-full) round: the result reaches numberU
            have htk : min (k0 :: kt).length (numberU - res.length)
                = numberU - res.length := min_eq_right hcase
            have hlentake : ((bumpTake (min (k0 :: kt).length (numberU - res.length))
                (k0 :: kt)).take (min (k0 :: kt).length (numberU - res.length))).length
                = numberU - res.length := by
              rw [List.length_take, hlenbump, htk]
              omega
            have hfullres : numberU ≤ (res ++ (bumpTake (min (k0 :: kt).length
                (numberU - res.length)) (k0 :: kt)).take
                (min (k0 :: kt).length (numberU - res.length))).length := by
              rw [List.length_append, hlentake]
              omega
            rw [roundRobin_exit hfullres]
            refine ⟨by rw [List.length_append, hlentake]; omega, ?_, ?_⟩
            · intro a ha b hb
              rcases bumpTake_mem_allEq hall hw _ a ha with h1 | h1 <;>
                rcases bumpTake_mem_allEq hall hw _ b hb with h2 | h2 <;>
                  rw [h1, h2] <;> omega
            · intro a ha
              rcases bumpTake_mem_allEq hall hw _ a ha with h1 | h1 <;>
                rw [h1] <;> exact ⟨by omega, by omega⟩
          · -- full round: every key moves to m + 1
            have htk : min (k0 :: kt).length (numberU - res.length)
                = (k0 :: kt).length := min_eq_left (by omega)
            have hall' : ∀ a ∈ bumpTake (min (k0 :: kt).length (numberU - res.length))
                (k0 :: kt), a.uses = m + 1 :=
              bumpTake_all hall hw (by rw [htk])
            have hlentake : ((bumpTake (min (k0 :: kt).length (numberU - res.length))
                (k0 :: kt)).take (min (k0 :: kt).length (numberU - res.length))).length
                = (k0 :: kt).length := by
              rw [List.length_take, hlenbump, htk]
              omega
            have hmul : ((k0 :: kt).length : Int) * (limit - (m + 1))
                = ((k0 :: kt).length : Int) * (limit - m) - (k0 :: kt).length := by
              ring
            have hpos : (k0 :: kt).length = kt.length + 1 := rfl
            refine ih (m + 1) _ _ (by omega) (by omega)
              (List.ne_nil_of_length_pos (by rw [hlenbump]; simp)) hall'
              ?_ ?_ ?_
            · rw [List.length_append, hlentake]
              omega
            · rw [List.length_append, hlentake]
              omega
            · rw [List.length_append, hlentake, hlenbump, hmul]
              omega
    · rw [roundRobin_exit (Nat.not_lt.1 hfull)]
      have hlen : res.length = numberU := by omega
      refine ⟨hlen, ?_, ?_⟩
      · intro a ha b hb
        rw [hall a ha, hall b hb]
        omega
      · intro a ha
        rw [hall a ha]
        exact ⟨hm0, hm1⟩

/-- Second balancing loop, case with insufficient capacity: the loop stops
with every key at exactly the limit, having emitted one slot per remaining
unit of capacity. -/
theorem roundRobin_exhaust {limit : Int} (hL1 : limit ≤ 32767) (numberU : Nat) :
    ∀ (fuel : Nat) (m : Int) (keys res : List (PgKey D)),
      0 ≤ m → m ≤ limit →
      keys ≠ [] →
      (∀ k ∈ keys, k.uses = m) →
      (limit - m).toNat ≤ fuel →
      keys.length * (limit - m) < (numberU : Int) - res.length →
      (((roundRobin limit numberU fuel keys res).2.length : Int)
          = res.length + keys.length * (limit - m)) ∧
      (∀ a ∈ (roundRobin limit numberU fuel keys res).1, a.uses = limit) := by
  intro fuel
  induction fuel with
  | zero =>
    intro m keys res hm0 hm1 hne hall hfuel hcap
    have hm : m = limit := by omega
    have hRR2 : (roundRobin limit numberU 0 keys res).2 = res := rfl
    have hRR1 : (roundRobin limit numberU 0 keys res).1 = keys := rfl
    rw [hRR2, hRR1, hm, sub_self, mul_zero]
    exact ⟨by omega, fun a ha => by rw [hall a ha, hm]⟩
  | succ fuel ih =>
    intro m keys res hm0 hm1 hne hall hfuel hcap
    have hprod0 : 0 ≤ (keys.length : Int) * (limit - m) :=
      mul_nonneg (by positivity) (by omega)
    have hfull : res.length < numberU := by omega
    cases keys with
    | nil => exact absurd rfl hne
    | cons k0 kt =>
      have hk0 : k0.uses = m := hall k0 (List.mem_cons_self k0 kt)
      by_cases hlim : k0.uses = limit
      · have hm : limit - m = 0 := by omega
        simp only [roundRobin, hfull, if_true, hlim, if_pos rfl]
        rw [hm, mul_zero]
        exact ⟨by omega, fun a ha => by rw [hall a ha]; omega⟩
      · have hmlt : m < limit := by omega
        have hw : wrap16 (m + 1) = m + 1 := wrap16_eq_self (by omega) (by omega)
        simp only [roundRobin, hfull, if_true, hlim, if_false]
        have hlenbump : (bumpTake (min (k0 :: kt).length (numberU - res.length))
            (k0 :: kt)).length = (k0 :: kt).length := bumpTake_length _ _
        have hgt : ((k0 :: kt).length : Int) < (numberU : Int) - res.length := by
          have h1 : (1:Int) ≤ limit - m := by omega
          have := mul_le_mul_of_nonneg_left h1 (show (0:Int) ≤ ((k0 :: kt).length : Int) by positivity)
          rw [mul_one] at this
          omega
        have htk : min (k0 :: kt).length (numberU - res.length)
            = (k0 :: kt).length := min_eq_left (by omega)
        have hall' : ∀ a ∈ bumpTake (min (k0 :: kt).length (numberU - res.length))
            (k0 :: kt), a.uses = m + 1 :=
          bumpTake_all hall hw (by rw [htk])
        have hlentake : ((bumpTake (min (k0 :: kt).length (numberU - res.length))
            (k0 :: kt)).take (min (k0 :: kt).length (numberU - res.length))).length
            = (k0 :: kt).length := by
          rw [List.length_take, hlenbump, htk]
          omega
        have hmul : ((k0 :: kt).length : Int) * (limit - (m + 1))
            = ((k0 :: kt).length : Int) * (limit - m) - (k0 :: kt).length := by
          ring
        have hrec := ih (m + 1)
          (bumpTake (min (k0 :: kt).length (numberU - res.length)) (k0 :: kt))
          (res ++ (bumpTake (min (k0 :: kt).length (numberU - res.length))
            (k0 :: kt)).take (min (k0 :: kt).length (numberU - res.length)))
          (by omega) (by omega)
          (List.ne_nil_of_length_pos (by rw [hlenbump]; simp)) hall'
          (by omega)
          (by rw [List.length_append, hlentake, hlenbump, hmul]; push_cast; omega)
        refine ⟨?_, hrec.2⟩
        rw [hrec.1, List.length_append, hlentake, hlenbump, hmul]
        push_cast
        ring

end RoundRobinLemmas

section ManyCandsLemmas

theorem manyCands_sorted (limit : Int) (now : Nat) (sel : KeySelector D)
    (st : List (PgKey D)) : SortedUses (manyCands limit now sel st) :=
  List.Pairwise.sublist (List.take_sublist _ _) (sortByUses_sorted _)

theorem sortByUses_manyCands (limit : Int) (now : Nat) (sel : KeySelector D)
    (st : List (PgKey D)) :
    sortByUses (manyCands limit now sel st) = manyCands limit now sel st :=
  sortByUses_eq_self (manyCands_sorted limit now sel st)

theorem manyCands_length_le (limit : Int) (now : Nat) (sel : KeySelector D)
    (st : List (PgKey D)) :
    (manyCands limit now sel st).length ≤ limit.toNat := by
  unfold manyCands
  simpa using List.length_take_le _ _

theorem manyCands_bounds {limit : Int} {now : Nat} {sel : KeySelector D}
    {st : List (PgKey D)} (hL : 0 ≤ limit)
    (hb : ∀ k ∈ st, 0 ≤ k.uses ∧ k.uses ≤ limit) :
    ∀ c ∈ manyCands limit now sel st, 0 ≤ c.uses ∧ c.uses ≤ limit := by
  intro c hc
  unfold manyCands at hc
  have hc1 : c ∈ sortByUses ((eligibleKeys now sel st).map (effApply now)) :=
    List.take_subset _ _ hc
  have hc2 : c ∈ (eligibleKeys now sel st).map (effApply now) :=
    (sortByUses_perm _).mem_iff.1 hc1
  rcases List.mem_map.1 hc2 with ⟨e, he, rfl⟩
  have hest : e ∈ st := (List.mem_filter.1 he).1
  have heb := hb e hest
  by_cases h : e.last_used < minuteStart now <;> simp [effApply, h] <;> omega

/-- Unfolding of a successful `acquire_many_keys` attempt into its
balancing pipeline. -/
theorem acquireManyAttempt_elim {limit : Int} {now : Nat} {st : List (PgKey D)}
    {sel : KeySelector D} {number : Int} {res st' : List (PgKey D)}
    (hatt : acquireManyAttempt limit now st sel number = some (res, st')) :
    ∃ mx, (manyCands limit now sel st).getLast? = some mx ∧
      (roundRobin limit number.toNat (number.toNat + 2)
        ((fillPhase number mx.uses (manyCands limit now sel st).dropLast []).1 ++ [mx])
        (fillPhase number mx.uses (manyCands limit now sel st).dropLast []).2).2 = res ∧
      st.map (fun k =>
        match (roundRobin limit number.toNat (number.toNat + 2)
            ((fillPhase number mx.uses (manyCands limit now sel st).dropLast []).1 ++ [mx])
            (fillPhase number mx.uses (manyCands limit now sel st).dropLast []).2).1.find?
              (fun j => j.id == k.id) with
        | some nk => { nk with last_used := now, cooldown := none, flag := none }
        | none => k) = st' := by
  rw [acquireManyAttempt] at hatt
  simp only [sortByUses_manyCands] at hatt
  cases hlast : (manyCands limit now sel st).getLast? with
  | none => rw [hlast] at hatt; exact absurd hatt (by simp)
  | some mx =>
    rw [hlast] at hatt
    simp only [Option.some.injEq, Prod.mk.injEq] at hatt
    exact ⟨mx, rfl, hatt.1, hatt.2⟩

/-- C9: bounded candidate set.  `acquire_many_keys` reads at most `limit`
candidate rows, in ascending order of effective usage; an eligible key
outside that candidate window is neither charged (its row survives
unchanged in the new state) nor ever returned among the result slots,
whatever number of slots was requested. -/
theorem acquire_many_bounded_candidates (limit : Int) (now : Nat)
    (st : List (PgKey D)) (sel : KeySelector D) (number : Int)
    (res st' : List (PgKey D))
    (hatt : acquireManyAttempt limit now st sel number = some (res, st'))
    (k : PgKey D) (hk : k ∈ st)
    (hout : k.id ∉ (manyCands limit now sel st).map (·.id)) :
    (manyCands limit now sel st).length ≤ limit.toNat ∧
    SortedUses (manyCands limit now sel st) ∧
    k ∈ st' ∧
    ∀ x ∈ res, x.id ≠ k.id := by
  obtain ⟨mx, hlast, hres, hst'⟩ := acquireManyAttempt_elim hatt
  have hdec : manyCands limit now sel st
      = (manyCands limit now sel st).dropLast ++ [mx] := getLast?_decomp hlast
  have hids : (roundRobin limit number.toNat (number.toNat + 2)
        ((fillPhase number mx.uses (manyCands limit now sel st).dropLast []).1 ++ [mx])
        (fillPhase number mx.uses (manyCands limit now sel st).dropLast []).2).1.map (·.id)
      = (manyCands limit now sel st).map (·.id) := by
    rw [roundRobin_ids, List.map_append, fillPhase_ids, ← List.map_append, ← hdec]
  refine ⟨manyCands_length_le limit now sel st, manyCands_sorted limit now sel st, ?_, ?_⟩
  · cases hfind : (roundRobin limit number.toNat (number.toNat + 2)
        ((fillPhase number mx.uses (manyCands limit now sel st).dropLast []).1 ++ [mx])
        (fillPhase number mx.uses (manyCands limit now sel st).dropLast []).2).1.find?
          (fun j => j.id == k.id) with
    | some nk =>
      exfalso
      apply hout
      have hnkmem := List.mem_of_find?_eq_some hfind
      have hpred := List.find?_some hfind
      simp only [beq_iff_eq] at hpred
      rw [← hids]
      exact List.mem_map.2 ⟨nk, hnkmem, hpred⟩
    | none =>
      rw [← hst']
      refine List.mem_map.2 ⟨k, hk, ?_⟩
      rw [hfind]
  · intro x hx hxk
    apply hout
    rw [← hres] at hx
    rcases roundRobin_res_sub _ _ _ _ _ x hx with h | h
    · rcases fillPhase_res_sub _ _ _ _ x h with h1 | h1
      · exact absurd h1 (List.not_mem_nil x)
      · rw [hdec, List.map_append, ← hxk]
        exact List.mem_append_left _ h1
    · rw [List.map_append, fillPhase_ids, ← List.map_append, ← hdec] at h
      rw [← hxk]
      exact h

end ManyCandsLemmas

section PipelineLemmas

/-- Both balancing loops together, capacity sufficient: exactly `number`
slots come back and the candidate keys end within one use of each other,
never above the limit. -/
theorem pipeline_reach {limit number : Int} (hL1 : limit ≤ 32767)
    (hn0 : 0 ≤ number) (hn1 : number < 32768)
    (rest : List (PgKey D)) (mx : PgKey D)
    (hrestb : ∀ c ∈ rest, 0 ≤ c.uses ∧ c.uses ≤ mx.uses)
    (hmx0 : 0 ≤ mx.uses) (hmx1 : mx.uses ≤ limit)
    (hcapA : capSum mx.uses rest ≤ number)
    (hcap : number ≤ capSum mx.uses rest + ((rest.length : Int) + 1) * (limit - mx.uses)) :
    (((roundRobin limit number.toNat (number.toNat + 2)
        ((fillPhase number mx.uses rest []).1 ++ [mx])
        (fillPhase number mx.uses rest []).2).2.length : Int) = number) ∧
    (∀ a ∈ (roundRobin limit number.toNat (number.toNat + 2)
        ((fillPhase number mx.uses rest []).1 ++ [mx])
        (fillPhase number mx.uses rest []).2).1,
      ∀ b ∈ (roundRobin limit number.toNat (number.toNat + 2)
        ((fillPhase number mx.uses rest []).1 ++ [mx])
        (fillPhase number mx.uses rest []).2).1, a.uses - b.uses ≤ 1) ∧
    (∀ a ∈ (roundRobin limit number.toNat (number.toNat + 2)
        ((fillPhase number mx.uses rest []).1 ++ [mx])
        (fillPhase number mx.uses rest []).2).1, 0 ≤ a.uses ∧ a.uses ≤ limit) := by
  obtain ⟨hfill1, hfill2⟩ := fillPhase_equalize hn0 hn1 hmx0 (le_trans hmx1 hL1)
    rest [] hrestb (by simpa using hn0) (by simpa using hcapA)
  simp only [List.length_nil, Nat.cast_zero, zero_add] at hfill2
  have hall : ∀ k ∈ (fillPhase number mx.uses rest []).1 ++ [mx], k.uses = mx.uses := by
    intro k hk
    rcases List.mem_append.1 hk with h | h
    · rw [hfill1] at h
      rcases List.mem_map.1 h with ⟨j, hj, rfl⟩
      rfl
    · simp at h
      rw [h]
  have hlen1 : ((fillPhase number mx.uses rest []).1 ++ [mx]).length = rest.length + 1 := by
    rw [List.length_append, hfill1, List.length_map]
    rfl
  have hreach := roundRobin_reach hL1 number.toNat (number.toNat + 2) mx.uses
    ((fillPhase number mx.uses rest []).1 ++ [mx])
    (fillPhase number mx.uses rest []).2
    hmx0 hmx1 (by simp) hall
    (by omega) (by omega)
    (by
      rw [Int.toNat_of_nonneg hn0, hfill2, hlen1]
      push_cast
      push_cast at hcap
      linarith)
  exact ⟨by rw [hreach.1, Int.toNat_of_nonneg hn0], hreach.2.1, hreach.2.2⟩

/-- Both balancing loops together, capacity insufficient: exactly the whole
remaining capacity comes back as slots, every candidate ends at the limit. -/
theorem pipeline_exhaust {limit number : Int} (hL1 : limit ≤ 32767)
    (hn0 : 0 ≤ number) (hn1 : number < 32768)
    (rest : List (PgKey D)) (mx : PgKey D)
    (hrestb : ∀ c ∈ rest, 0 ≤ c.uses ∧ c.uses ≤ mx.uses)
    (hmx0 : 0 ≤ mx.uses) (hmx1 : mx.uses ≤ limit)
    (hcap : capSum mx.uses rest + ((rest.length : Int) + 1) * (limit - mx.uses) < number) :
    ((roundRobin limit number.toNat (number.toNat + 2)
        ((fillPhase number mx.uses rest []).1 ++ [mx])
        (fillPhase number mx.uses rest []).2).2.length : Int)
      = capSum mx.uses rest + ((rest.length : Int) + 1) * (limit - mx.uses) := by
  have hrest0 : 0 ≤ capSum mx.uses rest := capSum_nonneg fun c hc => (hrestb c hc).2
  have hprod0 : 0 ≤ ((rest.length : Int) + 1) * (limit - mx.uses) :=
    mul_nonneg (by positivity) (by omega)
  obtain ⟨hfill1, hfill2⟩ := fillPhase_equalize hn0 hn1 hmx0 (le_trans hmx1 hL1)
    rest [] hrestb (by simpa using hn0) (by simp; linarith)
  simp only [List.length_nil, Nat.cast_zero, zero_add] at hfill2
  have hall : ∀ k ∈ (fillPhase number mx.uses rest []).1 ++ [mx], k.uses = mx.uses := by
    intro k hk
    rcases List.mem_append.1 hk with h | h
    · rw [hfill1] at h
      rcases List.mem_map.1 h with ⟨j, hj, rfl⟩
      rfl
    · simp at h
      rw [h]
  have hlen1 : ((fillPhase number mx.uses rest []).1 ++ [mx]).length = rest.length + 1 := by
    rw [List.length_append, hfill1, List.length_map]
    rfl
  have hone : (limit - mx.uses) ≤ ((rest.length : Int) + 1) * (limit - mx.uses) :=
    le_mul_of_one_le_left (by omega) (by omega)
  have hexh := roundRobin_exhaust hL1 number.toNat (number.toNat + 2) mx.uses
    ((fillPhase number mx.uses rest []).1 ++ [mx])
    (fillPhase number mx.uses rest []).2
    hmx0 hmx1 (by simp) hall
    (by omega)
    (by
      rw [Int.toNat_of_nonneg hn0, hfill2, hlen1]
      push_cast
      push_cast at hcap
      linarith)
  rw [hexh.1, hfill2, hlen1]
  push_cast
  ring

/-- Both balancing loops together when the first loop alone already fills
the request: exactly `number` slots come back. -/
theorem pipeline_trunc {limit number : Int} (hL1 : limit ≤ 32767)
    (hn0 : 0 ≤ number) (hn1 : number < 32768)
    (rest : List (PgKey D)) (mx : PgKey D)
    (hrestb : ∀ c ∈ rest, 0 ≤ c.uses ∧ c.uses ≤ mx.uses)
    (hmx0 : 0 ≤ mx.uses) (hmx1 : mx.uses ≤ limit)
    (hcapA : number < capSum mx.uses rest) :
    ((roundRobin limit number.toNat (number.toNat + 2)
        ((fillPhase number mx.uses rest []).1 ++ [mx])
        (fillPhase number mx.uses rest []).2).2.length : Int) = number := by
  have hfill := fillPhase_reach hn0 hn1 hmx0 (le_trans hmx1 hL1)
    rest [] hrestb (by simpa using hn0) (by simp; linarith)
  have hfull : number.toNat ≤ (fillPhase number mx.uses rest []).2.length := by omega
  rw [roundRobin_exit hfull]
  exact hfill

end PipelineLemmas

theorem getLast?_some_of_ne_nil {α : Type} {l : List α} (h : l ≠ []) :
    ∃ m, l.getLast? = some m := by
  induction l with
  | nil => exact absurd rfl h
  | cons a t ih =>
    cases t with
    | nil => exact ⟨a, rfl⟩
    | cons b t' =>
      rcases ih (by simp) with ⟨m, hm⟩
      exact ⟨m, by rwa [List.getLast?_cons_cons]⟩

/-- C3 (amended): balance of bulk acquisition over the candidate window.
With candidates the at-most-`limit` least-used eligible rows and their
remaining capacity `capSum limit candidates`: a request for
`0 ≤ number < 2 ^ 15` slots within capacity returns exactly `number`
slots; when the request moreover covers the deficit below the most-used
candidate (`capSum mx.uses candidates ≤ number`), afterwards the usage
counters of the candidate keys differ pairwise by at most one; when the
candidate capacity is below the request, exactly the capacity — hence
fewer than `number` — slots are returned. -/
theorem acquire_many_balanced (limit : Int) (now : Nat) (st : List (PgKey D))
    (sel : KeySelector D) (number : Int)
    (hL0 : 0 < limit) (hL1 : limit ≤ 32767)
    (hn0 : 0 ≤ number) (hn1 : number < 32768)
    (hb : ∀ k ∈ st, 0 ≤ k.uses ∧ k.uses ≤ limit)
    (hmc : manyCands limit now sel st ≠ []) :
    (number ≤ capSum limit (manyCands limit now sel st) →
      ∃ res st', acquireManyAttempt limit now st sel number = some (res, st') ∧
        (res.length : Int) = number) ∧
    (∀ mx, (manyCands limit now sel st).getLast? = some mx →
      capSum mx.uses (manyCands limit now sel st) ≤ number →
      number ≤ capSum limit (manyCands limit now sel st) →
      ∃ res st', acquireManyAttempt limit now st sel number = some (res, st') ∧
        (res.length : Int) = number ∧
        ∀ a ∈ st', ∀ b ∈ st',
          a.id ∈ (manyCands limit now sel st).map (·.id) →
          b.id ∈ (manyCands limit now sel st).map (·.id) →
          a.uses - b.uses ≤ 1) ∧
    (capSum limit (manyCands limit now sel st) < number →
      ∃ res st', acquireManyAttempt limit now st sel number = some (res, st') ∧
        (res.length : Int) = capSum limit (manyCands limit now sel st) ∧
        (res.length : Int) < number) := by
  obtain ⟨mx, hlast⟩ := getLast?_some_of_ne_nil hmc
  have hdec := getLast?_decomp hlast
  have hbc : ∀ c ∈ manyCands limit now sel st, 0 ≤ c.uses ∧ c.uses ≤ limit :=
    manyCands_bounds (le_of_lt hL0) hb
  have hmxmem : mx ∈ manyCands limit now sel st := by
    rw [hdec]
    exact List.mem_append_right _ (by simp)
  have hmxb := hbc mx hmxmem
  have hmax := sorted_le_getLast (manyCands_sorted limit now sel st) hlast
  have hrestb : ∀ c ∈ (manyCands limit now sel st).dropLast,
      0 ≤ c.uses ∧ c.uses ≤ mx.uses := by
    intro c hc
    have hcm : c ∈ manyCands limit now sel st := by
      rw [hdec]
      exact List.mem_append_left _ hc
    exact ⟨(hbc c hcm).1, hmax c hcm⟩
  have hcapdec : capSum limit (manyCands limit now sel st)
      = capSum limit (manyCands limit now sel st).dropLast + (limit - mx.uses) := by
    conv_lhs => rw [hdec]
    rw [capSum_append, capSum_cons, capSum_nil]
    ring
  have hcapmx : capSum mx.uses (manyCands limit now sel st)
      = capSum mx.uses (manyCands limit now sel st).dropLast := by
    conv_lhs => rw [hdec]
    rw [capSum_append, capSum_cons, capSum_nil]
    ring
  have hprodr : capSum limit (manyCands limit now sel st)
      = capSum mx.uses (manyCands limit now sel st).dropLast
        + (((manyCands limit now sel st).dropLast.length : Int) + 1)
            * (limit - mx.uses) := by
    rw [hcapdec, capSum_split limit mx.uses (manyCands limit now sel st).dropLast]
    ring
  have hatt : acquireManyAttempt limit now st sel number
      = some ((roundRobin limit number.toNat (number.toNat + 2)
          ((fillPhase number mx.uses (manyCands limit now sel st).dropLast []).1 ++ [mx])
          (fillPhase number mx.uses (manyCands limit now sel st).dropLast []).2).2,
        st.map fun k =>
          match (roundRobin limit number.toNat (number.toNat + 2)
              ((fillPhase number mx.uses (manyCands limit now sel st).dropLast []).1 ++ [mx])
              (fillPhase number mx.uses (manyCands limit now sel st).dropLast []).2).1.find?
                (fun j => j.id == k.id) with
          | some nk => { nk with last_used := now, cooldown := none, flag := none }
          | none => k) := by
    rw [acquireManyAttempt]
    simp only [sortByUses_manyCands]
    rw [hlast]
  refine ⟨?_, ?_, ?_⟩
  · intro hcap
    by_cases hA : capSum mx.uses (manyCands limit now sel st).dropLast ≤ number
    · have hp := pipeline_reach hL1 hn0 hn1
        (manyCands limit now sel st).dropLast mx hrestb hmxb.1 hmxb.2 hA
        (by rw [hprodr] at hcap; exact hcap)
      exact ⟨_, _, hatt, hp.1⟩
    · have hp := pipeline_trunc hL1 hn0 hn1
        (manyCands limit now sel st).dropLast mx hrestb hmxb.1 hmxb.2 (by omega)
      exact ⟨_, _, hatt, hp⟩
  · intro mx' hlast' hcmx hcap
    have hmx' : mx = mx' := by
      rw [hlast] at hlast'
      exact (Option.some_inj.1 hlast'.symm).symm
    subst hmx'
    rw [hcapmx] at hcmx
    have hp := pipeline_reach hL1 hn0 hn1
      (manyCands limit now sel st).dropLast mx hrestb hmxb.1 hmxb.2 hcmx
      (by rw [hprodr] at hcap; exact hcap)
    refine ⟨_, _, hatt, hp.1, ?_⟩
    have hids : (roundRobin limit number.toNat (number.toNat + 2)
          ((fillPhase number mx.uses (manyCands limit now sel st).dropLast []).1 ++ [mx])
          (fillPhase number mx.uses (manyCands limit now sel st).dropLast []).2).1.map (·.id)
        = (manyCands limit now sel st).map (·.id) := by
      rw [roundRobin_ids, List.map_append, fillPhase_ids, ← List.map_append, ← hdec]
    have hget : ∀ x ∈ st.map (fun k =>
        match (roundRobin limit number.toNat (number.toNat + 2)
            ((fillPhase number mx.uses (manyCands limit now sel st).dropLast []).1 ++ [mx])
            (fillPhase number mx.uses (manyCands limit now sel st).dropLast []).2).1.find?
              (fun j => j.id == k.id) with
        | some nk => { nk with last_used := now, cooldown := none, flag := none }
        | none => k),
        x.id ∈ (manyCands limit now sel st).map (·.id) →
        ∃ nk ∈ (roundRobin limit number.toNat (number.toNat + 2)
            ((fillPhase number mx.uses (manyCands limit now sel st).dropLast []).1 ++ [mx])
            (fillPhase number mx.uses (manyCands limit now sel st).dropLast []).2).1,
          x.uses = nk.uses := by
      intro x hx hxid
      rcases List.mem_map.1 hx with ⟨k, hk, rfl⟩
      cases hfind : (roundRobin limit number.toNat (number.toNat + 2)
          ((fillPhase number mx.uses (manyCands limit now sel st).dropLast []).1 ++ [mx])
          (fillPhase number mx.uses (manyCands limit now sel st).dropLast []).2).1.find?
            (fun j => j.id == k.id) with
      | some nk =>
        refine ⟨nk, List.mem_of_find?_eq_some hfind, ?_⟩
        simp only [hfind]
      | none =>
        exfalso
        simp only [hfind] at hxid
        rw [← hids] at hxid
        rcases List.mem_map.1 hxid with ⟨j, hj, hjid⟩
        have hne := List.find?_eq_none.1 hfind j hj
        simp only [beq_iff_eq] at hne
        exact hne hjid
    intro a ha b hb' haid hbid
    rcases hget a ha haid with ⟨nka, hnka, hua⟩
    rcases hget b hb' hbid with ⟨nkb, hnkb, hub⟩
    rw [hua, hub]
    exact hp.2.1 nka hnka nkb hnkb
  · intro hcap
    have hcmx : capSum mx.uses (manyCands limit now sel st).dropLast ≤ number := by
      have h1 : capSum mx.uses (manyCands limit now sel st).dropLast
          ≤ capSum limit (manyCands limit now sel st).dropLast :=
        capSum_mono hmxb.2 _
      omega
    have hp := pipeline_exhaust hL1 hn0 hn1
      (manyCands limit now sel st).dropLast mx hrestb hmxb.1 hmxb.2
      (by rw [hprodr] at hcap; exact hcap)
    refine ⟨_, _, hatt, ?_, ?_⟩
    · rw [hp, hprodr]
    · rw [hp]
      rw [hprodr] at hcap
      exact hcap

section ConflictRetry

/-- Errors reported by the database driver: a database-reported error with
its SQLSTATE code, or any other driver error (I/O, decoding, ...). -/
inductive DbError where
  | database (code : String)
  | other
deriving DecidableEq, Repr

/-- The error inspection in both acquisition loops: only a database error
with SQLSTATE 40001 (serialization conflict) is retried. -/
def isConflict : DbError → Bool
  | .database c => c == "40001"
  | .other => false

/-- `random_sleep`: a delay of `thread_rng().gen_range(1..50)` milliseconds,
i.e. uniform over 1..=49, as a function of the generator draw. -/
def randomSleepMillis (r : Nat) : Nat := 1 + r % 49

/-- The acquisition retry loop over the successive transactional attempt
outcomes: conflicts are absorbed and the next attempt runs; the first
non-conflict outcome is returned to the caller (`none` when every listed
attempt conflicted, i.e. the loop is still running). -/
def attemptsLoop {α : Type} : List (Except DbError α) → Option (Except DbError α)
  | [] => none
  | .ok a :: _ => some (.ok a)
  | .error e :: rest => if isConflict e then attemptsLoop rest else some (.error e)

/-- C5: conflict-retry protocol.  Exactly SQLSTATE 40001 is classified
retryable; the randomized backoff is in 1..=49 ms (within the documented
1-50 ms); a conflicting attempt is absorbed and the loop continues, any
other error surfaces immediately, a success returns immediately, and no
surfaced error is ever a conflict. -/
theorem conflict_retry_protocol {α : Type} :
    (∀ c : String, isConflict (.database c) = true ↔ c = "40001") ∧
    isConflict .other = false ∧
    (∀ r : Nat, 1 ≤ randomSleepMillis r ∧ randomSleepMillis r < 50) ∧
    (∀ (e : DbError) (rest : List (Except DbError α)), isConflict e = true →
      attemptsLoop (.error e :: rest) = attemptsLoop rest) ∧
    (∀ (e : DbError) (rest : List (Except DbError α)), isConflict e = false →
      attemptsLoop (.error e :: rest) = some (.error e)) ∧
    (∀ (a : α) (rest : List (Except DbError α)),
      attemptsLoop (.ok a :: rest) = some (.ok a)) ∧
    (∀ (outs : List (Except DbError α)) (e : DbError),
      attemptsLoop outs = some (.error e) → isConflict e = false) := by
  refine ⟨?_, rfl, ?_, ?_, ?_, ?_, ?_⟩
  · intro c
    simp [isConflict]
  · intro r
    have := Nat.mod_lt r (show 0 < 49 by norm_num)
    unfold randomSleepMillis
    omega
  · intro e rest h
    simp [attemptsLoop, h]
  · intro e rest h
    simp [attemptsLoop, h]
  · intro a rest
    rfl
  · intro outs e h
    induction outs with
    | nil => simp [attemptsLoop] at h
    | cons o rest ih =>
      cases o with
      | ok a => simp [attemptsLoop] at h
      | error e' =>
        cases hce : isConflict e' with
        | true =>
          simp only [attemptsLoop, hce, if_true] at h
          exact ih h
        | false =>
          simp only [attemptsLoop, hce, Bool.false_eq_true, if_false,
            Option.some.injEq, Except.error.injEq] at h
          rw [← h]
          exact hce

end ConflictRetry

section StoreKey

/-- Serial id assignment for a fresh row. -/
def nextId (st : List (PgKey D)) : Int := (st.map (fun k => k.id)).foldr max 0 + 1

/-- `PgKeyPoolStorage::store_key`: insert, or on conflict on the unique
secret merge the domain sets (`__unique_jsonb_array(excluded.domains ||
api_keys.domains)`), deduplicating. -/
def store_key (now : Nat) (st : List (PgKey D)) (user_id : Int) (secret : String)
    (domains : List D) : PgKey D × List (PgKey D) :=
  match st.find? (fun k => k.key == secret) with
  | some k =>
    let k' := { k with domains := (domains ++ k.domains).dedup }
    (k', updateById st k')
  | none =>
    let k : PgKey D := ⟨nextId st, user_id, secret, 0, domains, now, none, none⟩
    (k, st ++ [k])

/-- C6: upsert round trip.  When no stored key carries the secret, a new
row is inserted with the supplied fields; when one does, the returned and
persisted row keeps its identity and counters and carries exactly the
deduplicated union of the old and new domain sets. -/
theorem store_key_upsert (now : Nat) (st : List (PgKey D)) (user_id : Int)
    (secret : String) (domains : List D) :
    ((∀ k ∈ st, k.key ≠ secret) →
      store_key now st user_id secret domains
        = (⟨nextId st, user_id, secret, 0, domains, now, none, none⟩,
           st ++ [⟨nextId st, user_id, secret, 0, domains, now, none, none⟩])) ∧
    (∀ k, st.find? (fun j => j.key == secret) = some k →
      (store_key now st user_id secret domains).1.id = k.id ∧
      (store_key now st user_id secret domains).1.key = k.key ∧
      (store_key now st user_id secret domains).1.user_id = k.user_id ∧
      (store_key now st user_id secret domains).1.uses = k.uses ∧
      (∀ d, d ∈ (store_key now st user_id secret domains).1.domains ↔
        d ∈ domains ∨ d ∈ k.domains) ∧
      (store_key now st user_id secret domains).1.domains.Nodup ∧
      (store_key now st user_id secret domains).1
        ∈ (store_key now st user_id secret domains).2) := by
  constructor
  · intro h
    have hf : st.find? (fun k => k.key == secret) = none :=
      List.find?_eq_none.2 (fun k hk => by simp [h k hk])
    simp [store_key, hf]
  · intro k hf
    have hkmem : k ∈ st := List.mem_of_find?_eq_some hf
    have heq : store_key now st user_id secret domains
        = ({ k with domains := (domains ++ k.domains).dedup },
           updateById st { k with domains := (domains ++ k.domains).dedup }) := by
      simp only [store_key, hf]
    rw [heq]
    refine ⟨rfl, rfl, rfl, rfl, ?_, ?_, ?_⟩
    · intro d
      simp [List.mem_dedup]
    · exact List.nodup_dedup _
    · refine List.mem_map.2 ⟨k, hkmem, ?_⟩
      exact if_pos rfl

end StoreKey

section RemoveDomain

/-- `PgKeyPoolStorage::remove_domain_from_key`: update every matching row,
setting `domains = coalesce(__filter_jsonb_array(domains, $d), '[]')`
(deduplicate, drop the removed domain, and an emptied set becomes the
empty array, never NULL); return the first matching row, or
`KeyNotFound(selector)` when the selector matches nothing. -/
def remove_domain_from_key (st : List (PgKey D)) (sel : KeySelector D) (d : D) :
    Except (KeySelector D) (PgKey D × List (PgKey D)) :=
  match st.find? (matchesB sel) with
  | none => .error sel
  | some k =>
    .ok ({ k with domains := (k.domains.dedup).filter (fun x => x != d) },
      st.map fun j => if matchesB sel j then
        { j with domains := (j.domains.dedup).filter (fun x => x != d) } else j)

/-- C10: removing the last domain is not an error.  When the selector
matches a key whose only domain is the removed one, the call succeeds, the
returned key still exists in the store with the empty domain set (never a
missing row), and every other field is unchanged. -/
theorem remove_last_domain_ok (st : List (PgKey D)) (sel : KeySelector D)
    (k : PgKey D) (d : D)
    (hf : st.find? (matchesB sel) = some k)
    (hd : k.domains = [d]) :
    ∃ k' st', remove_domain_from_key st sel d = .ok (k', st') ∧
      k'.domains = [] ∧
      k'.id = k.id ∧ k'.user_id = k.user_id ∧ k'.key = k.key ∧
      k'.uses = k.uses ∧ k'.last_used = k.last_used ∧
      k'.flag = k.flag ∧ k'.cooldown = k.cooldown ∧
      k' ∈ st' := by
  have hkmem := List.mem_of_find?_eq_some hf
  have hkp : matchesB sel k = true := List.find?_some hf
  have heq : remove_domain_from_key st sel d
      = .ok ({ k with domains := (k.domains.dedup).filter (fun x => x != d) },
          st.map fun j => if matchesB sel j then
            { j with domains := (j.domains.dedup).filter (fun x => x != d) } else j) := by
    simp only [remove_domain_from_key, hf]
  refine ⟨_, _, heq, ?_, rfl, rfl, rfl, rfl, rfl, rfl, rfl, ?_⟩
  · rw [hd]
    simp
  · refine List.mem_map.2 ⟨k, hkmem, ?_⟩
    rw [if_pos hkp]

end RemoveDomain

section DefaultHooks

/-- An action a default error hook performs against the storage. -/
inductive HookAction where
  | remove
  | timeout (secs : Nat)
deriving DecidableEq, Repr

/-- The hook table registered by `PoolBuilder::use_default_hooks`
(`torn-key-pool/src/lib.rs`): codes 2 and 10 delete the key, code 5 puts it
on a 60-second timeout, codes 13 and 18 on a 24-hour timeout; every hook
reports retry.  No other code has a hook. -/
def use_default_hooks : Nat → Option HookAction
  | 2 => some .remove
  | 5 => some (.timeout 60)
  | 10 => some .remove
  | 13 => some (.timeout 86400)
  | 18 => some (.timeout 86400)
  | _ => none

/-- Outcome of decoding one upstream response body. -/
inductive UpstreamOutcome where
  | success
  | apiError (code : Nat)
deriving DecidableEq, Repr

/-- What `execute_with_key` does with one outcome. -/
inductive RequestStep where
  | response
  | retry
  | surfaced (code : Nat)
deriving DecidableEq, Repr

/-- `KeyPoolInner::execute_with_key`: a success is returned; an upstream
error code with a registered hook runs it and retries (every default hook
returns `true`); a code without a hook surfaces as a terminal error. -/
def executeWithKey (hooks : Nat → Option HookAction) :
    UpstreamOutcome → RequestStep
  | .success => .response
  | .apiError c =>
    match hooks c with
    | some _ => .retry
    | none => .surfaced c

/-- `KeyPoolInner::execute_request`: loop over outcomes, acquiring a fresh
key for every retry, until a response or terminal error. -/
def executeRequestLoop (hooks : Nat → Option HookAction) :
    List UpstreamOutcome → Option (Except Nat Unit)
  | [] => none
  | o :: rest =>
    match executeWithKey hooks o with
    | .response => some (.ok ())
    | .surfaced c => some (.error c)
    | .retry => executeRequestLoop hooks rest

/-- `PgKeyPoolStorage::flag_key` (`torn-key-pool/src/postgres.rs`): codes
2/10/13 put the key on a permanent (`'infinity'`) cooldown and retry; code
5 cools it until the next minute boundary and retries; code 14 until the
next day boundary and retries; codes 8 and 9 cool **every** key (no `where`
clause) without retry; any other code does nothing and does not retry. -/
def flag_key (now : Nat) (st : List (PgKey D)) (keyId : Int) (code : Nat) :
    Bool × List (PgKey D) :=
  match code with
  | 2 | 10 | 13 =>
    (true, st.map fun k => if k.id = keyId then
      { k with cooldown := some .inf, flag := some code } else k)
  | 5 =>
    (true, st.map fun k => if k.id = keyId then
      { k with cooldown := some (.fin (minuteStart now + 60)), flag := some 5 } else k)
  | 8 =>
    (false, st.map fun k =>
      { k with cooldown := some (.fin (now + 300)), flag := some 8 })
  | 9 =>
    (false, st.map fun k =>
      { k with cooldown := some (.fin (now + 60)), flag := some 9 })
  | 14 =>
    (true, st.map fun k => if k.id = keyId then
      { k with cooldown := some (.fin (dayStart now + 86400)), flag := some 14 } else k)
  | _ => (false, st)

/-- C7 (amended): default error-code policy.  Under the default hook table,
codes without a hook surface immediately as terminal errors while hooked
codes retry with a fresh key; the table deletes the key for codes 2
(invalid key) and 10 (owner in federal jail), and cools it for fixed
durations — 60 s for code 5, 24 h for codes 13 and 18.  Under the Postgres
`flag_key` policy, code 5 cools the key until the next minute boundary and
retries, code 14 (daily limit) until the next day boundary and retries,
code 2 places it on a permanent cooldown (the row persists, it is not
deleted) and retries, and unhandled codes report no retry and leave the
state unchanged. -/
theorem default_hooks_policy (now : Nat) (st : List (PgKey D)) (keyId : Int) :
    (∀ c : Nat, c ∉ ([2, 5, 10, 13, 18] : List Nat) → use_default_hooks c = none) ∧
    (∀ (c : Nat) (rest : List UpstreamOutcome), use_default_hooks c = none →
      executeRequestLoop use_default_hooks (.apiError c :: rest) = some (.error c)) ∧
    ((flag_key now st keyId 5).1 = true ∧
      ∀ k ∈ st, k.id = keyId →
        { k with cooldown := some (Ts.fin (minuteStart now + 60)), flag := some 5 }
          ∈ (flag_key now st keyId 5).2) ∧
    ((flag_key now st keyId 14).1 = true ∧
      ∀ k ∈ st, k.id = keyId →
        { k with cooldown := some (Ts.fin (dayStart now + 86400)), flag := some 14 }
          ∈ (flag_key now st keyId 14).2) ∧
    ((flag_key now st keyId 2).1 = true ∧
      ∀ k ∈ st, k.id = keyId →
        { k with cooldown := some Ts.inf, flag := some 2 }
          ∈ (flag_key now st keyId 2).2) ∧
    (use_default_hooks 2 = some HookAction.remove ∧
      use_default_hooks 10 = some HookAction.remove ∧
      use_default_hooks 5 = some (HookAction.timeout 60) ∧
      use_default_hooks 13 = some (HookAction.timeout 86400) ∧
      use_default_hooks 18 = some (HookAction.timeout 86400)) ∧
    (∀ c a, use_default_hooks c = some a →
      executeWithKey use_default_hooks (.apiError c) = .retry) ∧
    (∀ c, use_default_hooks c = none →
      executeWithKey use_default_hooks (.apiError c) = .surfaced c) ∧
    (∀ (c : Nat) (rest : List UpstreamOutcome), use_default_hooks c ≠ none →
      executeRequestLoop use_default_hooks (.apiError c :: rest)
        = executeRequestLoop use_default_hooks rest) ∧
    (∀ rest : List UpstreamOutcome,
      executeRequestLoop use_default_hooks (.success :: rest) = some (.ok ())) ∧
    (∀ c : Nat, c ∉ ([2, 5, 8, 9, 10, 13, 14] : List Nat) →
      flag_key now st keyId c = (false, st)) := by
  refine ⟨?_, ?_, ?_, ?_, ?_, ?_, ?_, ?_, ?_, ?_, ?_⟩
  · intro c hc
    unfold use_default_hooks
    split <;> simp_all
  · intro c rest hc
    simp [executeRequestLoop, executeWithKey, hc]
  · exact ⟨rfl, fun k hk hid => List.mem_map.2 ⟨k, hk, by rw [if_pos hid]⟩⟩
  · exact ⟨rfl, fun k hk hid => List.mem_map.2 ⟨k, hk, by rw [if_pos hid]⟩⟩
  · exact ⟨rfl, fun k hk hid => List.mem_map.2 ⟨k, hk, by rw [if_pos hid]⟩⟩
  · exact ⟨rfl, rfl, rfl, rfl, rfl⟩
  · intro c a hc
    simp [executeWithKey, hc]
  · intro c hc
    simp [executeWithKey, hc]
  · intro c rest hc
    rcases Option.ne_none_iff_exists.1 hc with ⟨a, ha⟩
    simp [executeRequestLoop, executeWithKey, ← ha]
  · intro rest
    rfl
  · intro c hc
    unfold flag_key
    split <;> simp_all

end DefaultHooks

section BulkExecution

/-- The positional pairing at the heart of `execute_bulk_requests`
(`lib.rs`) and `execute_many` (`send.rs`): the request list is zipped
against the acquired key list and each pair is executed; `zip` silently
truncates at the shorter list. -/
def executeBulkRequests {δ ρ κ σ : Type} (run : κ → ρ → σ)
    (requests : List (δ × ρ)) (keys : List κ) : List (δ × σ) :=
  (requests.zip keys).map fun p => (p.1.1, run p.2 p.1.2)

theorem executeBulkRequests_fst {δ ρ κ σ : Type} (run : κ → ρ → σ) :
    ∀ (requests : List (δ × ρ)) (keys : List κ),
      (executeBulkRequests run requests keys).map Prod.fst
        = (requests.map Prod.fst).take keys.length := by
  intro requests
  induction requests with
  | nil => intro keys; simp [executeBulkRequests]
  | cons r rs ih =>
    intro keys
    cases keys with
    | nil => rfl
    | cons key keys =>
      simp only [executeBulkRequests, List.zip_cons_cons, List.map_cons,
        List.length_cons, List.take_succ_cons]
      exact congrArg (r.1 :: ·) (ih keys)

/-- C8: bulk truncation.  When bulk acquisition returns `k` keys for `R > k`
requests, the executor produces exactly `k` results, whose discriminants
are those of the first `k` requests in order; with distinct discriminants,
each of the trailing `R - k` requests has no result at all in the output. -/
theorem bulk_truncation {δ ρ κ σ : Type} (run : κ → ρ → σ)
    (requests : List (δ × ρ)) (keys : List κ)
    (hshort : keys.length < requests.length) :
    (executeBulkRequests run requests keys).length = keys.length ∧
    (executeBulkRequests run requests keys).map Prod.fst
      = (requests.map Prod.fst).take keys.length ∧
    ((requests.map Prod.fst).Nodup →
      ∀ d ∈ (requests.map Prod.fst).drop keys.length,
        d ∉ (executeBulkRequests run requests keys).map Prod.fst) := by
  refine ⟨?_, executeBulkRequests_fst run requests keys, ?_⟩
  · simp only [executeBulkRequests, List.length_map, List.length_zip]
    omega
  · intro hnd d hdrop hmem
    rw [executeBulkRequests_fst run requests keys] at hmem
    have hsplit : (requests.map Prod.fst).take keys.length
        ++ (requests.map Prod.fst).drop keys.length = requests.map Prod.fst :=
      List.take_append_drop _ _
    rw [← hsplit] at hnd
    exact (List.disjoint_of_nodup_append hnd) hmem hdrop

end BulkExecution

/-- The domain type used by the crate's own test-suite (`postgres.rs`,
`mod test`): `Guild` falls back to `All`, every other domain has no
fallback. -/
inductive TestDomain where
  | all
  | guild (id : Int)
  | user (id : Int)
  | faction (id : Int)
deriving DecidableEq, Repr

/-- `impl KeyDomain for Domain` from the crate's test-suite. -/
def testFallback : TestDomain → Option TestDomain
  | .guild _ => some .all
  | _ => none

/-- Witness for C2 at a concrete one-key pool. -/
theorem acquire_key_single_postcondition_witness :
    (⟨1, 1, "K", 0, [TestDomain.all], 60, none, none⟩ : PgKey TestDomain) ∈
      ([⟨1, 1, "K", 0, [TestDomain.all], 60, none, none⟩] : List (PgKey TestDomain)) ∧
    eligB 90 (KeySelector.has [TestDomain.all])
      (⟨1, 1, "K", 0, [TestDomain.all], 60, none, none⟩ : PgKey TestDomain) = true ∧
    effUses 90 (⟨1, 1, "K", 0, [TestDomain.all], 60, none, none⟩ : PgKey TestDomain) < 5 ∧
    (∃ e k' st',
      e ∈ ([⟨1, 1, "K", 0, [TestDomain.all], 60, none, none⟩] : List (PgKey TestDomain)) ∧
      eligB 90 (KeySelector.has [TestDomain.all]) e = true ∧
      (∀ j ∈ ([⟨1, 1, "K", 0, [TestDomain.all], 60, none, none⟩] : List (PgKey TestDomain)),
        eligB 90 (KeySelector.has [TestDomain.all]) j = true →
        effUses 90 e ≤ effUses 90 j) ∧
      k' = { e with uses := effUses 90 e + 1, last_used := 90,
                    cooldown := none, flag := none } ∧
      st' = updateById [⟨1, 1, "K", 0, [TestDomain.all], 60, none, none⟩] k' ∧
      acquire_key testFallback 5 90 (0 + 1)
        [⟨1, 1, "K", 0, [TestDomain.all], 60, none, none⟩]
        (KeySelector.has [TestDomain.all]) = .ok (k', st')) :=
  ⟨by decide, by decide, by decide,
    acquire_key_single_postcondition testFallback 5 90
      [⟨1, 1, "K", 0, [TestDomain.all], 60, none, none⟩]
      (KeySelector.has [TestDomain.all]) 0
      ⟨1, 1, "K", 0, [TestDomain.all], 60, none, none⟩
      (by decide) (by decide) (by decide)⟩

/-- Witness for C4: a pool holding only an `All` key, queried for
`Guild 7`, which falls back to `All`. -/
theorem fallback_behaviour_witness :
    (∀ j ∈ ([⟨2, 1, "B", 0, [TestDomain.all], 60, none, none⟩] : List (PgKey TestDomain)),
      eligB 90 (KeySelector.has [TestDomain.guild 7]) j = false) ∧
    [TestDomain.guild 7].filterMap testFallback ≠ [] ∧
    (⟨2, 1, "B", 0, [TestDomain.all], 60, none, none⟩ : PgKey TestDomain) ∈
      ([⟨2, 1, "B", 0, [TestDomain.all], 60, none, none⟩] : List (PgKey TestDomain)) ∧
    eligB 90 (KeySelector.has ([TestDomain.guild 7].filterMap testFallback))
      (⟨2, 1, "B", 0, [TestDomain.all], 60, none, none⟩ : PgKey TestDomain) = true ∧
    effUses 90 (⟨2, 1, "B", 0, [TestDomain.all], 60, none, none⟩ : PgKey TestDomain) < 5 ∧
    (∃ k' st',
      acquire_key testFallback 5 90 (0 + 2)
        [⟨2, 1, "B", 0, [TestDomain.all], 60, none, none⟩]
        (KeySelector.has [TestDomain.guild 7]) = .ok (k', st') ∧
      matchesB (KeySelector.has ([TestDomain.guild 7].filterMap testFallback)) k' = true) :=
  ⟨by decide, by decide, by decide, by decide, by decide,
    (fallback_behaviour testFallback 5 90 0).2.2.2.2.2.2
      [⟨2, 1, "B", 0, [TestDomain.all], 60, none, none⟩] [TestDomain.guild 7]
      ⟨2, 1, "B", 0, [TestDomain.all], 60, none, none⟩
      (by decide) (by decide) (by decide) (by decide) (by decide)⟩


/-- C1: evaluation of the repository code at a concrete reachable state
showing the overrun.  Three keys at uses `[0, 5, 5]` in the current minute,
per-key limit 5 (so every counter starts within the limit), and a bulk
request for 65538 slots: the `number as i16` cast truncates 65538 to 2, the
first balancing loop stops after two slots, and the second loop then tops
the two most-used keys up to 8 — past the limit — before the batch update
commits.  The final state carries counters `[5, 8, 8]` although the limit
is 5. -/
theorem acquire_many_overrun_truncated_number :
    (∀ k ∈ ([⟨1, 1, "a", 0, [TestDomain.all], 60, none, none⟩,
             ⟨2, 1, "b", 5, [TestDomain.all], 60, none, none⟩,
             ⟨3, 1, "c", 5, [TestDomain.all], 60, none, none⟩] :
        List (PgKey TestDomain)), k.uses ≤ 5) ∧
    (acquireManyAttempt 5 60
        [⟨1, 1, "a", 0, [TestDomain.all], 60, none, none⟩,
         ⟨2, 1, "b", 5, [TestDomain.all], 60, none, none⟩,
         ⟨3, 1, "c", 5, [TestDomain.all], 60, none, none⟩]
        (KeySelector.has [TestDomain.all]) 65538).map
      (fun p => p.2.map (fun k => k.uses)) = some [5, 8, 8] ∧
    ¬((8 : Int) ≤ 5) := by
  decide

/-- C3 counterexample: two current-minute keys at uses `[0, 5]`, limit 10,
bulk request for 2 slots.  The request is within the total remaining
capacity of the eligible keys (15),
and exactly 2 slots come back, but the persisted counters end at `[2, 5]`:
the spread among the eligible keys is 3, not at most 1. -/
theorem acquire_many_spread_counterexample :
    eligibleKeys 60 (KeySelector.has [TestDomain.all])
        [⟨1, 1, "a", 0, [TestDomain.all], 60, none, none⟩,
         ⟨2, 1, "b", 5, [TestDomain.all], 60, none, none⟩]
      = [⟨1, 1, "a", 0, [TestDomain.all], 60, none, none⟩,
         ⟨2, 1, "b", 5, [TestDomain.all], 60, none, none⟩] ∧
    (2 : Int) ≤ capSum 10
        [⟨1, 1, "a", 0, [TestDomain.all], 60, none, none⟩,
         ⟨2, 1, "b", 5, [TestDomain.all], 60, none, none⟩] ∧
    (acquireManyAttempt 10 60
        [⟨1, 1, "a", 0, [TestDomain.all], 60, none, none⟩,
         ⟨2, 1, "b", 5, [TestDomain.all], 60, none, none⟩]
        (KeySelector.has [TestDomain.all]) 2).map
      (fun p => ((p.1.length : Int), p.2.map (fun k => k.uses)))
      = some (2, [2, 5]) ∧
    ¬((5 : Int) - 2 ≤ 1) := by
  decide

/-- Witness for the amended C3 at a concrete pool. -/
theorem acquire_many_balanced_witness :
    ((0 : Int) < 10 ∧ (10 : Int) ≤ 32767 ∧ (0 : Int) ≤ 9 ∧ (9 : Int) < 32768 ∧
      (∀ k ∈ ([⟨1, 1, "a", 0, [TestDomain.all], 60, none, none⟩,
               ⟨2, 1, "b", 5, [TestDomain.all], 60, none, none⟩] :
          List (PgKey TestDomain)), 0 ≤ k.uses ∧ k.uses ≤ 10) ∧
      manyCands 10 60 (KeySelector.has [TestDomain.all])
        [⟨1, 1, "a", 0, [TestDomain.all], 60, none, none⟩,
         ⟨2, 1, "b", 5, [TestDomain.all], 60, none, none⟩] ≠ [] ∧
      (9 : Int) ≤ capSum 10 (manyCands 10 60 (KeySelector.has [TestDomain.all])
        [⟨1, 1, "a", 0, [TestDomain.all], 60, none, none⟩,
         ⟨2, 1, "b", 5, [TestDomain.all], 60, none, none⟩])) ∧
    (∃ res st', acquireManyAttempt 10 60
        [⟨1, 1, "a", 0, [TestDomain.all], 60, none, none⟩,
         ⟨2, 1, "b", 5, [TestDomain.all], 60, none, none⟩]
        (KeySelector.has [TestDomain.all]) 9 = some (res, st') ∧
      (res.length : Int) = 9) :=
  ⟨⟨by decide, by decide, by decide, by decide, by decide, by decide, by decide⟩,
    (acquire_many_balanced 10 60
      [⟨1, 1, "a", 0, [TestDomain.all], 60, none, none⟩,
       ⟨2, 1, "b", 5, [TestDomain.all], 60, none, none⟩]
      (KeySelector.has [TestDomain.all]) 9
      (by decide) (by decide) (by decide) (by decide) (by decide) (by decide)).1
      (by decide)⟩

/-- Witness for C9: with limit 1 only the least-used eligible key is a
candidate; the other eligible key is untouched and never returned. -/
theorem acquire_many_bounded_candidates_witness :
    acquireManyAttempt 1 60
        [⟨1, 1, "a", 0, [TestDomain.all], 60, none, none⟩,
         ⟨2, 1, "b", 0, [TestDomain.all], 60, none, none⟩]
        (KeySelector.has [TestDomain.all]) 2
      = some ([⟨1, 1, "a", 1, [TestDomain.all], 60, none, none⟩],
              [⟨1, 1, "a", 1, [TestDomain.all], 60, none, none⟩,
               ⟨2, 1, "b", 0, [TestDomain.all], 60, none, none⟩]) ∧
    (⟨2, 1, "b", 0, [TestDomain.all], 60, none, none⟩ : PgKey TestDomain) ∈
      ([⟨1, 1, "a", 0, [TestDomain.all], 60, none, none⟩,
        ⟨2, 1, "b", 0, [TestDomain.all], 60, none, none⟩] : List (PgKey TestDomain)) ∧
    (⟨2, 1, "b", 0, [TestDomain.all], 60, none, none⟩ : PgKey TestDomain).id ∉
      (manyCands 1 60 (KeySelector.has [TestDomain.all])
        [⟨1, 1, "a", 0, [TestDomain.all], 60, none, none⟩,
         ⟨2, 1, "b", 0, [TestDomain.all], 60, none, none⟩]).map (·.id) ∧
    ((manyCands 1 60 (KeySelector.has [TestDomain.all])
        [⟨1, 1, "a", 0, [TestDomain.all], 60, none, none⟩,
         ⟨2, 1, "b", 0, [TestDomain.all], 60, none, none⟩]).length ≤ (1 : Int).toNat ∧
      SortedUses (manyCands 1 60 (KeySelector.has [TestDomain.all])
        [⟨1, 1, "a", 0, [TestDomain.all], 60, none, none⟩,
         ⟨2, 1, "b", 0, [TestDomain.all], 60, none, none⟩]) ∧
      (⟨2, 1, "b", 0, [TestDomain.all], 60, none, none⟩ : PgKey TestDomain) ∈
        [⟨1, 1, "a", 1, [TestDomain.all], 60, none, none⟩,
         ⟨2, 1, "b", 0, [TestDomain.all], 60, none, none⟩] ∧
      ∀ x ∈ ([⟨1, 1, "a", 1, [TestDomain.all], 60, none, none⟩] : List (PgKey TestDomain)),
        x.id ≠ (⟨2, 1, "b", 0, [TestDomain.all], 60, none, none⟩ : PgKey TestDomain).id) :=
  ⟨by decide, by decide, by decide,
    acquire_many_bounded_candidates 1 60
      [⟨1, 1, "a", 0, [TestDomain.all], 60, none, none⟩,
       ⟨2, 1, "b", 0, [TestDomain.all], 60, none, none⟩]
      (KeySelector.has [TestDomain.all]) 2
      [⟨1, 1, "a", 1, [TestDomain.all], 60, none, none⟩]
      [⟨1, 1, "a", 1, [TestDomain.all], 60, none, none⟩,
       ⟨2, 1, "b", 0, [TestDomain.all], 60, none, none⟩]
      (by decide)
      ⟨2, 1, "b", 0, [TestDomain.all], 60, none, none⟩
      (by decide) (by decide)⟩


/-- Witness for C5 at concrete outcome lists. -/
theorem conflict_retry_protocol_witness :
    isConflict (DbError.database "40001") = true ∧
    (1 ≤ randomSleepMillis 7 ∧ randomSleepMillis 7 < 50) ∧
    attemptsLoop [(Except.error (DbError.database "40001") : Except DbError Nat),
        Except.ok 3] = some (Except.ok 3) ∧
    attemptsLoop [(Except.error DbError.other : Except DbError Nat), Except.ok 3]
      = some (Except.error DbError.other) :=
  ⟨by decide,
    (@conflict_retry_protocol Nat).2.2.1 7,
    ((@conflict_retry_protocol Nat).2.2.2.1 (DbError.database "40001")
        [Except.ok 3] (by decide)).trans
      ((@conflict_retry_protocol Nat).2.2.2.2.2.1 3 []),
    (@conflict_retry_protocol Nat).2.2.2.2.1 DbError.other [Except.ok 3] (by decide)⟩

/-- Witness for C6: inserting a fresh secret and merging into an existing
one. -/
theorem store_key_upsert_witness :
    (∀ k ∈ ([⟨1, 1, "S", 3, [TestDomain.all], 60, none, none⟩] :
        List (PgKey TestDomain)), k.key ≠ "T") ∧
    store_key 90 [⟨1, 1, "S", 3, [TestDomain.all], 60, none, none⟩] 2 "T"
        [TestDomain.user 5]
      = (⟨nextId [⟨1, 1, "S", 3, [TestDomain.all], 60, none, none⟩], 2, "T", 0,
            [TestDomain.user 5], 90, none, none⟩,
         [⟨1, 1, "S", 3, [TestDomain.all], 60, none, none⟩]
           ++ [⟨nextId [⟨1, 1, "S", 3, [TestDomain.all], 60, none, none⟩], 2, "T", 0,
            [TestDomain.user 5], 90, none, none⟩]) ∧
    ([⟨1, 1, "S", 3, [TestDomain.all], 60, none, none⟩] :
        List (PgKey TestDomain)).find? (fun j => j.key == "S")
      = some ⟨1, 1, "S", 3, [TestDomain.all], 60, none, none⟩ ∧
    ((store_key 90 [⟨1, 1, "S", 3, [TestDomain.all], 60, none, none⟩] 2 "S"
        [TestDomain.user 5]).1.id
        = (⟨1, 1, "S", 3, [TestDomain.all], 60, none, none⟩ : PgKey TestDomain).id ∧
      (store_key 90 [⟨1, 1, "S", 3, [TestDomain.all], 60, none, none⟩] 2 "S"
        [TestDomain.user 5]).1.key
        = (⟨1, 1, "S", 3, [TestDomain.all], 60, none, none⟩ : PgKey TestDomain).key ∧
      (store_key 90 [⟨1, 1, "S", 3, [TestDomain.all], 60, none, none⟩] 2 "S"
        [TestDomain.user 5]).1.user_id
        = (⟨1, 1, "S", 3, [TestDomain.all], 60, none, none⟩ : PgKey TestDomain).user_id ∧
      (store_key 90 [⟨1, 1, "S", 3, [TestDomain.all], 60, none, none⟩] 2 "S"
        [TestDomain.user 5]).1.uses
        = (⟨1, 1, "S", 3, [TestDomain.all], 60, none, none⟩ : PgKey TestDomain).uses ∧
      (∀ d, d ∈ (store_key 90 [⟨1, 1, "S", 3, [TestDomain.all], 60, none, none⟩] 2 "S"
          [TestDomain.user 5]).1.domains ↔
        d ∈ [TestDomain.user 5] ∨
        d ∈ (⟨1, 1, "S", 3, [TestDomain.all], 60, none, none⟩ : PgKey TestDomain).domains) ∧
      (store_key 90 [⟨1, 1, "S", 3, [TestDomain.all], 60, none, none⟩] 2 "S"
        [TestDomain.user 5]).1.domains.Nodup ∧
      (store_key 90 [⟨1, 1, "S", 3, [TestDomain.all], 60, none, none⟩] 2 "S"
        [TestDomain.user 5]).1
        ∈ (store_key 90 [⟨1, 1, "S", 3, [TestDomain.all], 60, none, none⟩] 2 "S"
        [TestDomain.user 5]).2) :=
  ⟨by decide,
   (store_key_upsert 90 [⟨1, 1, "S", 3, [TestDomain.all], 60, none, none⟩] 2 "T"
      [TestDomain.user 5]).1 (by decide),
   by decide,
   (store_key_upsert 90 [⟨1, 1, "S", 3, [TestDomain.all], 60, none, none⟩] 2 "S"
      [TestDomain.user 5]).2 ⟨1, 1, "S", 3, [TestDomain.all], 60, none, none⟩
      (by decide)⟩

/-- C7 counterexample: under the default hook table the owner-inactive
code 13 is mapped to a 24-hour timeout, not to deletion, and the
daily-quota code 14 has no hook at all (it is surfaced, not cooled until
the next day boundary and retried) — contradicting the claim as stated. -/
theorem default_hooks_counterexample :
    use_default_hooks 13 = some (HookAction.timeout 86400) ∧
    some (HookAction.timeout 86400) ≠ some HookAction.remove ∧
    use_default_hooks 14 = none := by
  decide

/-- Witness for the amended C7. -/
theorem default_hooks_policy_witness :
    (7 ∉ ([2, 5, 10, 13, 18] : List Nat)) ∧
    use_default_hooks 7 = none ∧
    executeRequestLoop use_default_hooks [UpstreamOutcome.apiError 14]
      = some (Except.error 14) ∧
    ({ (⟨1, 1, "K", 0, [TestDomain.all], 60, none, none⟩ : PgKey TestDomain) with
        cooldown := some (Ts.fin (minuteStart 90 + 60)), flag := some 5 }
      ∈ (flag_key 90 [⟨1, 1, "K", 0, [TestDomain.all], 60, none, none⟩] 1 5).2) :=
  ⟨by decide,
    (default_hooks_policy 90
      ([⟨1, 1, "K", 0, [TestDomain.all], 60, none, none⟩] : List (PgKey TestDomain)) 1).1
      7 (by decide),
    (default_hooks_policy 90
      ([⟨1, 1, "K", 0, [TestDomain.all], 60, none, none⟩] : List (PgKey TestDomain)) 1).2.1
      14 [] (by decide),
    (default_hooks_policy 90
      ([⟨1, 1, "K", 0, [TestDomain.all], 60, none, none⟩] : List (PgKey TestDomain)) 1).2.2.1.2
      ⟨1, 1, "K", 0, [TestDomain.all], 60, none, none⟩ (by decide) (by decide)⟩

/-- Witness for C8: three requests, one key. -/
theorem bulk_truncation_witness :
    (([()] : List Unit).length < ([(0, ()), (1, ()), (2, ())] : List (Nat × Unit)).length) ∧
    ((executeBulkRequests (fun _ _ => ()) [(0, ()), (1, ()), (2, ())] [()]).length
        = ([()] : List Unit).length ∧
      (executeBulkRequests (fun _ _ => ()) [(0, ()), (1, ()), (2, ())] [()]).map Prod.fst
        = (([(0, ()), (1, ()), (2, ())] : List (Nat × Unit)).map Prod.fst).take
            ([()] : List Unit).length ∧
      ((([(0, ()), (1, ()), (2, ())] : List (Nat × Unit)).map Prod.fst).Nodup →
        ∀ d ∈ (([(0, ()), (1, ()), (2, ())] : List (Nat × Unit)).map Prod.fst).drop
            ([()] : List Unit).length,
          d ∉ (executeBulkRequests (fun _ _ => ()) [(0, ()), (1, ()), (2, ())] [()]).map
            Prod.fst)) :=
  ⟨by decide, bulk_truncation (fun _ _ => ()) [(0, ()), (1, ()), (2, ())] [()] (by decide)⟩

/-- Witness for C10: a key whose only domain is removed. -/
theorem remove_last_domain_ok_witness :
    ([⟨1, 1, "K", 2, [TestDomain.all], 60, none, some (Ts.fin 30)⟩] :
        List (PgKey TestDomain)).find? (matchesB (KeySelector.id 1))
      = some ⟨1, 1, "K", 2, [TestDomain.all], 60, none, some (Ts.fin 30)⟩ ∧
    (⟨1, 1, "K", 2, [TestDomain.all], 60, none, some (Ts.fin 30)⟩ :
      PgKey TestDomain).domains = [TestDomain.all] ∧
    (∃ k' st', remove_domain_from_key
        [⟨1, 1, "K", 2, [TestDomain.all], 60, none, some (Ts.fin 30)⟩]
        (KeySelector.id 1) TestDomain.all = .ok (k', st') ∧
      k'.domains = [] ∧
      k'.id = (⟨1, 1, "K", 2, [TestDomain.all], 60, none, some (Ts.fin 30)⟩ :
        PgKey TestDomain).id ∧
      k'.user_id = (⟨1, 1, "K", 2, [TestDomain.all], 60, none, some (Ts.fin 30)⟩ :
        PgKey TestDomain).user_id ∧
      k'.key = (⟨1, 1, "K", 2, [TestDomain.all], 60, none, some (Ts.fin 30)⟩ :
        PgKey TestDomain).key ∧
      k'.uses = (⟨1, 1, "K", 2, [TestDomain.all], 60, none, some (Ts.fin 30)⟩ :
        PgKey TestDomain).uses ∧
      k'.last_used = (⟨1, 1, "K", 2, [TestDomain.all], 60, none, some (Ts.fin 30)⟩ :
        PgKey TestDomain).last_used ∧
      k'.flag = (⟨1, 1, "K", 2, [TestDomain.all], 60, none, some (Ts.fin 30)⟩ :
        PgKey TestDomain).flag ∧
      k'.cooldown = (⟨1, 1, "K", 2, [TestDomain.all], 60, none, some (Ts.fin 30)⟩ :
        PgKey TestDomain).cooldown ∧
      k' ∈ st') :=
  ⟨by decide, by decide,
    remove_last_domain_ok [⟨1, 1, "K", 2, [TestDomain.all], 60, none, some (Ts.fin 30)⟩]
      (KeySelector.id 1) ⟨1, 1, "K", 2, [TestDomain.all], 60, none, some (Ts.fin 30)⟩
      TestDomain.all (by decide) (by decide)⟩

end TornKeyPool
